import Mathlib

/-!
Verification development for the conditional pluri-Gaussian simulator
`pluriGaussianSim` of `geone/pgs.py`.

The embedding models the code over exact rationals.  Random draws of the
original (`np.random.permutation`, `np.random.normal`, `np.random.random`)
are supplied by an explicit oracle threaded through the definitions; the
kriging linear algebra (`np.linalg.solve`, kriged mean and variance) is
implemented exactly over `ℚ`, with a failing (singular) solve returning
`none` as the original raises and aborts the attempt.
-/

namespace PGS

/-! ### Grid-cell indexing (pgs.py lines 630-641)

`indc_f = (x-origin)/spacing; indc = indc_f.astype(int);`
`indc = indc - 1 * np.all((indc == indc_f, indc > 0), axis=0)`
followed by flattening with the grid dimensions. -/

/-- numpy's `astype(int)` on a float: truncation toward zero. -/
def ratTrunc (q : ℚ) : ℤ := q.num.tdiv q.den

/-- One component of the conditioning-node index: truncate toward zero, and
nudge down by one when the quotient is an exact, strictly positive integer. -/
def cellIndexComp (q : ℚ) : ℤ :=
  if (ratTrunc q : ℚ) = q ∧ 0 < ratTrunc q then ratTrunc q - 1 else ratTrunc q

/-- Flattening of per-axis cell indices:
`indc[:,0] + nx*indc[:,1]` in 2D, `indc[:,0] + nx*(indc[:,1] + ny*indc[:,2])`
in 3D, and the identity in 1D. -/
def flattenIdx : List ℕ → List ℤ → ℤ
  | _, [] => 0
  | dims, i :: is => i + (dims.headD 1 : ℤ) * flattenIdx dims.tail is

/-- The componentwise quotients `(x - origin) / spacing`. -/
def quotients (o s xp : List ℚ) : List ℚ :=
  (xp.zip (o.zip s)).map (fun p => (p.1 - p.2.1) / p.2.2)

/-- Flattened grid-cell index of one conditioning coordinate, as computed by
pgs.py lines 630-641. -/
def cellIndex (o s : List ℚ) (dims : List ℕ) (xp : List ℚ) : ℤ :=
  flattenIdx dims ((quotients o s xp).map cellIndexComp)

/-- The indexing rule as the specification words it: floor-toward-lower-cell
rounding (`Rat.floor`, the largest integer below the quotient), nudged down
by one on exact strictly positive integer quotients. -/
def cellIndexCompSpec (q : ℚ) : ℤ :=
  if (q.floor : ℚ) = q ∧ 0 < q.floor then q.floor - 1 else q.floor

/-- Flattened index under the specification's floor-based componentwise rule. -/
def cellIndexSpec (o s : List ℚ) (dims : List ℕ) (xp : List ℚ) : ℤ :=
  flattenIdx dims ((quotients o s xp).map cellIndexCompSpec)

/-! ### Conditioning-data deduplication (pgs.py lines 623-655) -/

/-- Model of `np.unique`: the sorted list of distinct values. -/
def npUnique (l : List ℤ) : List ℤ := l.dedup.insertionSort (· ≤ ·)

/-- The conditioning values falling in grid cell `i`
(`v[indc_inv == j]` in the original, in original order). -/
def groupVals (il : List ℤ) (vs : List ℚ) (i : ℤ) : List ℚ :=
  ((il.zip vs).filter (fun p => decide (p.1 = i))).map Prod.snd

/-- The conditioning coordinates falling in grid cell `i`. -/
def groupCoords (il : List ℤ) (xs : List (List ℚ)) (i : ℤ) : List (List ℚ) :=
  ((il.zip xs).filter (fun p => decide (p.1 = i))).map Prod.snd

/-- The flattened cell index of every conditioning coordinate. -/
def condIdx (o s : List ℚ) (dims : List ℕ) (xs : List (List ℚ)) : List ℤ :=
  xs.map (cellIndex o s dims)

/-- Model of `any([len(np.unique(v[indc_inv==j])) > 1 for j ...])`: some grid cell
receives two different conditioning values. -/
def valueConflict (il : List ℤ) (vs : List ℚ) : Bool :=
  (npUnique il).any (fun i => decide (1 < (groupVals il vs i).dedup.length))

/-- Preparation of the conditioning data (pgs.py lines 623-655): check the
lengths of `x` and `v`, dedup points falling in the same grid cell keeping the
first representative, fail (`none`, modelling the early `return out`) when two
colliding points carry different values. -/
def prepCond (o s : List ℚ) (dims : List ℕ) (xs : List (List ℚ)) (vs : List ℚ) :
    Option (List (List ℚ) × List ℚ) :=
  if xs.length = vs.length then
    if (npUnique (condIdx o s dims xs)).length = xs.length then some (xs, vs)
    else if valueConflict (condIdx o s dims xs) vs then none
    else some
      ((npUnique (condIdx o s dims xs)).map
          (fun i => (groupCoords (condIdx o s dims xs) xs i).headD []),
       (npUnique (condIdx o s dims xs)).map
          (fun i => (groupVals (condIdx o s dims xs) vs i).headD 0))
  else none

/-- Lookup of the conditioning entry stored for grid cell `i` in a prepared
(coordinates, values) pair: the first point whose coordinate maps to `i`. -/
def lookupIdx (o s : List ℚ) (dims : List ℕ)
    (out : List (List ℚ) × List ℚ) (i : ℤ) : Option (List ℚ × ℚ) :=
  (out.1.zip out.2).find? (fun p => decide (cellIndex o s dims p.1 = i))

/-! ### Dense linear solve (`np.linalg.solve`)

Gaussian elimination with pivot search, over `ℚ`.  `none` models the
`LinAlgError` raised on a singular system, which the original catches with
`except:` and turns into an aborted attempt. -/

/-- Dot product of two rational vectors. -/
def dotQ (a b : List ℚ) : ℚ := ((a.zip b).map (fun p => p.1 * p.2)).sum

/-- Find the first equation with a nonzero leading coefficient, returning it
together with the remaining equations. -/
def findPivot : List (List ℚ × ℚ) → Option ((List ℚ × ℚ) × List (List ℚ × ℚ))
  | [] => none
  | r :: t =>
    if r.1.headD 0 ≠ 0 then some (r, t)
    else (findPivot t).map (fun p => (p.1, r :: p.2))

/-- Forward elimination and back substitution on `n` augmented equations. -/
def gaussAux : ℕ → List (List ℚ × ℚ) → Option (List ℚ)
  | 0, _ => some []
  | n + 1, eqs =>
    match findPivot eqs with
    | none => none
    | some (pv, rest) =>
      (gaussAux n (rest.map (fun e =>
          ((e.1.tail.zip pv.1.tail).map
              (fun q => q.1 - e.1.headD 0 / pv.1.headD 0 * q.2),
            e.2 - e.1.headD 0 / pv.1.headD 0 * pv.2)))).map
        (fun ys => (pv.2 - dotQ pv.1.tail ys) / pv.1.headD 0 :: ys)

/-- Model of `np.linalg.solve(a, b)`; `none` on a singular system. -/
def linsolve (a : List (List ℚ)) (b : List ℚ) : Option (List ℚ) :=
  gaussAux b.length (a.zip b)

/-- The submatrix `mat[idx, :][:, idx]` on the index list `idx`. -/
def subMat (mat : ℕ → ℕ → ℚ) (idx : List ℕ) : List (List ℚ) :=
  idx.map (fun i => idx.map (fun j => mat i j))

/-- The vector `mat[idx, k]`, the second member of the kriging system. -/
def subVec (mat : ℕ → ℕ → ℚ) (idx : List ℕ) (k : ℕ) : List ℚ :=
  idx.map (fun i => mat i k)

/-- Solve the simple-kriging system on neighbours `vis` for point `k` and
return the kriged mean and the (clamped) kriging variance:
`mu = mean[k] + (vals[vis] - mean[vis]) · w` and
`var = max(0, cov0 - w · mat[vis, k])` (pgs.py lines 852-864). -/
def krigMuVar (mat : ℕ → ℕ → ℚ) (cov0 : ℚ) (mean vals : ℕ → ℚ)
    (vis : List ℕ) (k : ℕ) : Option (ℚ × ℚ) :=
  (linsolve (subMat mat vis) (subVec mat vis k)).map
    (fun w =>
      (mean k + dotQ (vis.map (fun i => vals i - mean i)) w,
       max 0 (cov0 - dotQ w (subVec mat vis k))))

/-! ### The conditional core: sequential initialization and the
Metropolis-Hastings loop (pgs.py lines 842-998) -/

/-- The inputs of one conditional realization attempt that the code computes
before the realization loop: number of (deduplicated) conditioning points,
the truncation rule `flag_value`, the required values `v`, presence of a
covariance model for each latent field (`false` = deterministic), the kriging
matrices `mat_T1`/`mat_T2`, the covariances at lag zero, the per-point means
`mean_T[x_mean_T_grid_ind[k]]`, and the Metropolis-Hastings schedule.
`accept_pow` is the exponent of the acceptance schedule (`2.0` by default in
the original; modelled as a natural exponent). -/
structure MHParams where
  npt : ℕ
  flag : ℚ → ℚ → ℚ
  v : ℕ → ℚ
  covT1 : Bool
  covT2 : Bool
  matT1 : ℕ → ℕ → ℚ
  matT2 : ℕ → ℕ → ℚ
  cov0T1 : ℚ
  cov0T2 : ℚ
  meanT1 : ℕ → ℚ
  meanT2 : ℕ → ℚ
  accept_init : ℚ
  accept_pow : ℕ
  mh_iter_min : ℕ
  mh_iter_max : ℕ

/-- The random draws consumed by one attempt: the visiting permutations of
`np.random.permutation`, the normal draws (as functions of the kriged mean
and variance that parameterize `np.random.normal`), and the uniform draws of
`np.random.random()` used in the acceptance test. -/
structure MHOracle where
  permInit1 : List ℕ
  permInit2 : List ℕ
  perm : ℕ → List ℕ
  drawInit1 : ℕ → ℚ → ℚ → ℚ
  drawInit2 : ℕ → ℚ → ℚ → ℚ
  draw1 : ℕ → ℕ → ℚ → ℚ → ℚ
  draw2 : ℕ → ℕ → ℚ → ℚ → ℚ
  coin : ℕ → ℕ → ℚ

/-- Sequential simulation of T1 at the conditioning points (pgs.py lines
846-874): visit the points in the oracle's order; krige each from the
previously visited ones and draw, or take the mean when T1 has no covariance
model.  A singular solve aborts (`none`). -/
def seqInitT1 (P : MHParams) (O : MHOracle) (s : ℕ → ℚ × ℚ) :
    Option (ℕ → ℚ × ℚ) :=
  (O.permInit1.foldl
    (fun acc k => acc.bind (fun p =>
      if P.covT1 then
        match krigMuVar P.matT1 P.cov0T1 P.meanT1 (fun i => (p.2 i).1) p.1 k with
        | none => none
        | some ms =>
          some (p.1 ++ [k],
            Function.update p.2 k (O.drawInit1 k ms.1 ms.2, (p.2 k).2))
      else
        some (p.1 ++ [k], Function.update p.2 k (P.meanT1 k, (p.2 k).2))))
    (some ([], s))).map Prod.snd

/-- Sequential simulation of T2 at the conditioning points (pgs.py lines
876-904), writing the second components. -/
def seqInitT2 (P : MHParams) (O : MHOracle) (s : ℕ → ℚ × ℚ) :
    Option (ℕ → ℚ × ℚ) :=
  (O.permInit2.foldl
    (fun acc k => acc.bind (fun p =>
      if P.covT2 then
        match krigMuVar P.matT2 P.cov0T2 P.meanT2 (fun i => (p.2 i).2) p.1 k with
        | none => none
        | some ms =>
          some (p.1 ++ [k],
            Function.update p.2 k ((p.2 k).1, O.drawInit2 k ms.1 ms.2))
      else
        some (p.1 ++ [k], Function.update p.2 k ((p.2 k).1, P.meanT2 k))))
    (some ([], s))).map Prod.snd

/-- The list `np.hstack((np.arange(k), np.arange(k+1, npt)))` of all indices
except `k`. -/
def listWithout (npt k : ℕ) : List ℕ :=
  List.range k ++ List.range' (k + 1) (npt - (k + 1))

/-- Whether conditioning point `k` is honoured by the current latent values:
`flag_value(v_T[k,0], v_T[k,1]) == v[k]`. -/
def hdOk (P : MHParams) (st : ℕ → ℚ × ℚ) (k : ℕ) : Bool :=
  decide (P.flag (st k).1 (st k).2 = P.v k)

/-- The honoured count `np.sum(hd_ok)` over the conditioning points. -/
def nhd (P : MHParams) (st : ℕ → ℚ × ℚ) : ℕ :=
  (List.range P.npt).countP (hdOk P st)

/-- The acceptance probability of iteration `nit < mh_iter_min`:
`accept_init * (1 - nit/mh_iter_min) ** accept_pow` (pgs.py line 919). -/
def pAccept (P : MHParams) (nit : ℕ) : ℚ :=
  P.accept_init * (1 - (nit : ℚ) / (P.mh_iter_min : ℚ)) ^ P.accept_pow

/-- The candidate pair `(T1(x[k]), T2(x[k]))` of one Metropolis-Hastings
visit (pgs.py lines 928-974): for each latent field with a covariance model,
solve the leave-one-out kriging system and draw; without a covariance model,
take the per-point mean. `none` on a singular solve. -/
def mhCandidate (P : MHParams) (O : MHOracle) (nit k : ℕ) (st : ℕ → ℚ × ℚ) :
    Option (ℚ × ℚ) :=
  (if P.covT1 then
    (krigMuVar P.matT1 P.cov0T1 P.meanT1 (fun i => (st i).1)
        (listWithout P.npt k) k).map (fun ms => O.draw1 nit k ms.1 ms.2)
  else some (P.meanT1 k)).bind (fun c1 =>
  (if P.covT2 then
    (krigMuVar P.matT2 P.cov0T2 P.meanT2 (fun i => (st i).2)
        (listWithout P.npt k) k).map (fun ms => O.draw2 nit k ms.1 ms.2)
  else some (P.meanT2 k)).map (fun c2 => (c1, c2)))

/-- Acceptance of a candidate (pgs.py lines 976-982): always accept a
candidate whose truncation-rule image equals the required value; otherwise
accept with probability `p_accept` only while `nit < mh_iter_min`. -/
def mhAccept (P : MHParams) (O : MHOracle) (nit k : ℕ) (st : ℕ → ℚ × ℚ)
    (c : ℚ × ℚ) : ℕ → ℚ × ℚ :=
  if P.flag c.1 c.2 = P.v k then Function.update st k c
  else if nit < P.mh_iter_min ∧ O.coin nit k < pAccept P nit then
    Function.update st k c
  else st

/-- One Metropolis-Hastings sweep over the points (pgs.py lines 922-982):
visit the oracle's permutation; once `nit ≥ mh_iter_min`, skip the points
flagged honoured at the start of the iteration; a singular solve aborts the
sweep (`none`). -/
def mhSweep (P : MHParams) (O : MHOracle) (nit : ℕ) (s : ℕ → ℚ × ℚ) :
    Option (ℕ → ℚ × ℚ) :=
  (O.perm nit).foldl
    (fun acc k => acc.bind (fun st =>
      if P.mh_iter_min ≤ nit ∧ hdOk P s k = true then some st
      else (mhCandidate P O nit k st).map (mhAccept P O nit k st)))
    (some s)

/-- Outcome of the Metropolis-Hastings loop: the recorded honoured counts
`nhd_ok`, the final latent values at the points, the `stop_mh` flag, and the
`sim_ok` flag (`false` after a singular solve). -/
structure MHResult where
  trace : List ℕ
  state : ℕ → ℚ × ℚ
  stop_mh : Bool
  sim_ok : Bool

/-- The loop `for nit in range(mh_iter_max)` (pgs.py lines 909-985), from
iteration `nit` with `rem` iterations left: record the honoured count, stop
when `nit ≥ mh_iter_min` and all points are honoured, otherwise sweep. -/
def mhLoopAux (P : MHParams) (O : MHOracle) : ℕ → ℕ → (ℕ → ℚ × ℚ) → MHResult
  | _, 0, s => ⟨[], s, false, true⟩
  | nit, rem + 1, s =>
    if P.mh_iter_min ≤ nit ∧ nhd P s = P.npt then ⟨[nhd P s], s, true, true⟩
    else
      match mhSweep P O nit s with
      | none => ⟨[nhd P s], s, false, false⟩
      | some s2 =>
        ⟨nhd P s :: (mhLoopAux P O (nit + 1) rem s2).trace,
         (mhLoopAux P O (nit + 1) rem s2).state,
         (mhLoopAux P O (nit + 1) rem s2).stop_mh,
         (mhLoopAux P O (nit + 1) rem s2).sim_ok⟩

/-- The full Metropolis-Hastings phase: run the loop from iteration 0 and,
when the loop was exhausted without failure (`not stop_mh`, pgs.py lines
990-992), record one final honoured count. -/
def mhRun (P : MHParams) (O : MHOracle) (s0 : ℕ → ℚ × ℚ) : MHResult :=
  if (mhLoopAux P O 0 P.mh_iter_max s0).sim_ok = true ∧
      (mhLoopAux P O 0 P.mh_iter_max s0).stop_mh = false then
    ⟨(mhLoopAux P O 0 P.mh_iter_max s0).trace ++
        [nhd P (mhLoopAux P O 0 P.mh_iter_max s0).state],
     (mhLoopAux P O 0 P.mh_iter_max s0).state,
     (mhLoopAux P O 0 P.mh_iter_max s0).stop_mh,
     (mhLoopAux P O 0 P.mh_iter_max s0).sim_ok⟩
  else mhLoopAux P O 0 P.mh_iter_max s0

/-- One conditional try up to the end of the Metropolis-Hastings phase:
`v_T = np.zeros((npt, 2))`, sequential initialization of T1 then T2 (a
singular solve gives `sim_ok = false` and an empty `nhd_ok`), then the loop. -/
def tryAttempt (P : MHParams) (O : MHOracle) : MHResult :=
  match seqInitT1 P O (fun _ => (0, 0)) with
  | none => ⟨[], fun _ => (0, 0), false, false⟩
  | some s1 =>
    match seqInitT2 P O s1 with
    | none => ⟨[], s1, false, false⟩
    | some s2 => mhRun P O s2

/-- The honoured-count sequence recorded by a whole Metropolis-Hastings
phase: the loop's recorded counts, extended by the final recount exactly when
the loop was exhausted without failure (pgs.py lines 990-992). -/
def fullTrace (P : MHParams) (r : MHResult) : List ℕ :=
  if r.sim_ok = true ∧ r.stop_mh = false then r.trace ++ [nhd P r.state]
  else r.trace

/-! ### Realization assembly (pgs.py lines 796-1061, conditional branch)

The full-grid generation of T1 and T2 by `multiGaussian.multiGaussianRun` is
an external collaborator; one try's generation outcomes are supplied as
`Option` fields of the try's oracle (`none` models the `None` return that
makes the try continue). -/

/-- The randomness and external-generator outcomes of one try. -/
structure TryOracle where
  mh : MHOracle
  gen1 : Option (List ℚ)
  gen2 : Option (List ℚ)

/-- Assembly parameters: the attempt inputs plus the retry policy
`ntry_max` / `retrieve_real_anyway`, the realization count and verbosity. -/
structure AsmParams where
  P : MHParams
  ntry_max : ℕ
  retrieve_real_anyway : Bool
  nreal : ℕ
  verbose : ℕ

/-- One emitted realization: `Z`, the latent grids, the honoured-count
history, and whether the partial-honouring warning was printed. -/
structure EmitData where
  z : List ℚ
  t1 : List ℚ
  t2 : List ℚ
  nhdTrace : List ℕ
  warn : Bool

/-- Outcome of one try: `fail` continues with the next try, `giveup` breaks
the try loop without a realization, `emit` appends a realization and breaks. -/
inductive TryOut
  | fail
  | giveup
  | emit (e : EmitData)

/-- The entry `nhd_ok[-1]`: the honoured count recorded last. -/
def lastCount (r : MHResult) : ℕ := r.trace.getLastD 0

/-- One try of the conditional branch (pgs.py lines 800-1049): run the
attempt; on failure continue; on partial honouring continue unless this is
the last try and `retrieve_real_anyway` (lines 993-998); generate the full
latent grids (failure continues); re-check honouring (lines 1036-1042,
warning when `verbose > 1`), apply `flag_value` elementwise and emit. -/
def oneTry (A : AsmParams) (O : TryOracle) (ntry : ℕ) : TryOut :=
  if (tryAttempt A.P O.mh).sim_ok = false then .fail
  else if lastCount (tryAttempt A.P O.mh) ≠ A.P.npt ∧
      (ntry < A.ntry_max - 1 ∨ A.retrieve_real_anyway = false) then .fail
  else
    match O.gen1 with
    | none => .fail
    | some t1 =>
      match O.gen2 with
      | none => .fail
      | some t2 =>
        if lastCount (tryAttempt A.P O.mh) ≠ A.P.npt ∧
            A.retrieve_real_anyway = false then .giveup
        else .emit
          ⟨List.zipWith A.P.flag t1 t2, t1, t2, (tryAttempt A.P O.mh).trace,
           decide (lastCount (tryAttempt A.P O.mh) ≠ A.P.npt ∧ 1 < A.verbose)⟩

/-- The try loop `for ntry in range(ntry_max)` from try `ntry` with `rem`
tries left: `fail` continues, `giveup` and `emit` break. -/
def runTriesAux (A : AsmParams) (Os : ℕ → TryOracle) : ℕ → ℕ → Option EmitData
  | _, 0 => none
  | ntry, rem + 1 =>
    match oneTry A (Os ntry) ntry with
    | .fail => runTriesAux A Os (ntry + 1) rem
    | .giveup => none
    | .emit e => some e

/-- All tries of one realization. -/
def runReal (A : AsmParams) (Os : ℕ → TryOracle) : Option EmitData :=
  runTriesAux A Os 0 A.ntry_max

/-- The aggregated output: `Z`, `T1`, `T2`, `n_cond_ok`, and whether the
missing-realization warning (pgs.py lines 1052-1053) was printed. -/
structure AsmOut where
  Z : List (List ℚ)
  T1 : List (List ℚ)
  T2 : List (List ℚ)
  n_cond_ok : List (List ℕ)
  warnMissing : Bool

/-- The realization loop `for ireal in range(nreal)` (pgs.py lines 796-1061):
realizations whose tries were exhausted are simply omitted, and the warning
is printed when `verbose > 1` and fewer than `nreal` realizations remain. -/
def assemble (A : AsmParams) (Os : ℕ → ℕ → TryOracle) : AsmOut :=
  ⟨((List.range A.nreal).filterMap (fun i => runReal A (Os i))).map EmitData.z,
   ((List.range A.nreal).filterMap (fun i => runReal A (Os i))).map EmitData.t1,
   ((List.range A.nreal).filterMap (fun i => runReal A (Os i))).map EmitData.t2,
   ((List.range A.nreal).filterMap (fun i => runReal A (Os i))).map
     EmitData.nhdTrace,
   decide (((List.range A.nreal).filterMap (fun i => runReal A (Os i))).length
       < A.nreal ∧ 1 < A.verbose)⟩

/-- The whole conditional call: prepare the conditioning data; when
preparation fails the call returns the empty result (`None`s) without
running any realization attempt, modelled by `none`; otherwise the rest of
the call (`rest`) runs on the deduplicated data. -/
def pgsCond (o s : List ℚ) (dims : List ℕ) (xs : List (List ℚ)) (vs : List ℚ)
    (rest : List (List ℚ) × List ℚ → AsmOut) : Option AsmOut :=
  (prepCond o s dims xs vs).map rest

/-! ### The parameter bags `params_T1` / `params_T2` (pgs.py lines 765-787)

python dicts, mutated in place by the call; modelled as association lists
passed and returned explicitly. -/

/-- The keys of the parameter bag that the call touches. -/
inductive PKey
  | mean
  | var
  | verbose
deriving DecidableEq

/-- A parameter value: a per-cell array, a number, or python's `None`. -/
inductive PVal
  | arr (a : List ℚ)
  | nat (n : ℕ)
  | null
deriving DecidableEq

/-- Assignment `params[k] = w`: overwrite the binding of `k`, or append it. -/
def setKey (bag : List (PKey × PVal)) (k : PKey) (w : PVal) :
    List (PKey × PVal) :=
  if bag.any (fun p => decide (p.1 = k)) then
    bag.map (fun p => if p.1 = k then (k, w) else p)
  else bag ++ [(k, w)]

/-- Lookup `params.get(k)` as the first binding of `k`. -/
def getKey (bag : List (PKey × PVal)) (k : PKey) : Option PVal :=
  (bag.find? (fun p => decide (p.1 = k))).map Prod.snd

/-- The in-place update of one parameter bag performed before the realization
loop (pgs.py lines 765-787): with a covariance model, store the resolved
`mean` array and the resolved `var` (python `None` when absent); without one,
store only the broadcast deterministic `mean`; then insert `verbose = 0` when
the key is absent. -/
def updateParams (cov : Bool) (meanRes : List ℚ) (varRes : Option (List ℚ))
    (meanDet : List ℚ) (bag : List (PKey × PVal)) : List (PKey × PVal) :=
  if (if cov then
        setKey (setKey bag .mean (.arr meanRes)) .var
          (match varRes with | some a => .arr a | none => .null)
      else setKey bag .mean (.arr meanDet)).any
        (fun p => decide (p.1 = PKey.verbose)) then
    (if cov then
        setKey (setKey bag .mean (.arr meanRes)) .var
          (match varRes with | some a => .arr a | none => .null)
      else setKey bag .mean (.arr meanDet))
  else
    setKey
      (if cov then
        setKey (setKey bag .mean (.arr meanRes)) .var
          (match varRes with | some a => .arr a | none => .null)
      else setKey bag .mean (.arr meanDet)) .verbose (.nat 0)

/-! ### Concrete instances used to instantiate the theorems -/

/-- One deterministic conditioning point that is honoured immediately. -/
def Pdet : MHParams :=
  ⟨1, fun a _ => a, fun _ => 0, false, false, fun _ _ => 0, fun _ _ => 0,
    1, 1, fun _ => 0, fun _ => 0, 1/4, 2, 0, 1⟩

/-- One deterministic conditioning point that can never be honoured
(`flag = 0`, required value `1`), with `mh_iter_max = 0`. -/
def Pbad : MHParams :=
  ⟨1, fun _ _ => 0, fun _ => 1, false, false, fun _ _ => 0, fun _ _ => 0,
    1, 1, fun _ => 0, fun _ => 0, 1/4, 2, 0, 0⟩

/-- An oracle visiting the single point. -/
def Odet : MHOracle :=
  ⟨[0], [0], fun _ => [0], fun _ _ _ => 0, fun _ _ _ => 0,
    fun _ _ _ _ => 0, fun _ _ _ _ => 0, fun _ _ => 1⟩

/-- A try oracle whose full-grid generations succeed. -/
def OTdet : TryOracle := ⟨Odet, some [0], some [0]⟩

/-- Assembly parameters: one realization, one try, no retrieve-anyway. -/
def Afail : AsmParams := ⟨Pbad, 1, false, 1, 2⟩

/-- Assembly parameters: two tries, no retrieve-anyway. -/
def Aaband : AsmParams := ⟨Pbad, 2, false, 1, 2⟩

/-- Assembly parameters: one try, retrieve-anyway enabled. -/
def Aretr : AsmParams := ⟨Pbad, 1, true, 1, 2⟩

/-! ## Theorems -/

variable {α : Type _} {β : Type _}

theorem find?_eq_head?_filter (p : α → Bool) :
    ∀ l : List α, l.find? p = (l.filter p).head?
  | [] => rfl
  | a :: t => by
    by_cases h : p a = true
    · rw [List.find?_cons_of_pos _ h, List.filter_cons_of_pos h, List.head?_cons]
    · rw [List.find?_cons_of_neg _ (by simpa using h),
        List.filter_cons_of_neg (by simpa using h), find?_eq_head?_filter p t]

theorem length_filterMap_lt_of_none {f : α → Option β} :
    ∀ {l : List α} {a : α}, a ∈ l → f a = none →
      (l.filterMap f).length < l.length := by
  intro l
  induction l with
  | nil => intro a h; cases h
  | cons b t ih =>
    intro a h hf
    rcases List.mem_cons.mp h with rfl | ht
    · rw [List.filterMap_cons_none hf, List.length_cons]
      exact Nat.lt_succ_of_le (List.length_filterMap_le f t)
    · cases hfb : f b with
      | none => rw [List.filterMap_cons_none hfb]; exact Nat.lt_succ_of_lt (ih ht hf)
      | some c =>
        rw [List.filterMap_cons_some hfb, List.length_cons, List.length_cons]
        exact Nat.succ_lt_succ (ih ht hf)

theorem ratTrunc_eq_floor_of_nonneg {q : ℚ} (h : 0 ≤ q) : ratTrunc q = q.floor := by
  unfold ratTrunc Rat.floor
  by_cases hd : q.den = 1
  · rw [if_pos hd, hd]
    exact Int.tdiv_one q.num
  · rw [if_neg hd]
    exact Int.tdiv_eq_ediv (Rat.num_nonneg.mpr h) (Int.ofNat_nonneg q.den)

theorem cellIndexComp_eq_spec_of_nonneg {q : ℚ} (h : 0 ≤ q) :
    cellIndexComp q = cellIndexCompSpec q := by
  unfold cellIndexComp cellIndexCompSpec
  rw [ratTrunc_eq_floor_of_nonneg h]

/-- C5, counterexample: at a coordinate whose quotient `(x - origin)/spacing`
is the negative non-integer `-1/2`, the code's `astype(int)` truncation gives
cell index `0` while the claimed floor-toward-lower-cell rule gives `-1`, so
the claim's description of the computed index is false there. -/
theorem C5_counterexample :
    cellIndex [0] [1] [10] [-(1/2 : ℚ)] = 0 ∧
    cellIndexSpec [0] [1] [10] [-(1/2 : ℚ)] = -1 ∧
    cellIndex [0] [1] [10] [-(1/2 : ℚ)] ≠
      cellIndexSpec [0] [1] [10] [-(1/2 : ℚ)] := by
  exact ⟨by with_unfolding_all decide, by with_unfolding_all decide,
    by with_unfolding_all decide⟩

/-- C5, amended: the component index is obtained by truncation toward zero of
`(coordinate - origin)/spacing` (numpy's `astype(int)`), nudged down by one
when the quotient is an exact strictly positive integer; whenever every
quotient component is nonnegative (every coordinate at or above the grid
origin) this coincides with the claimed floor-toward-lower-cell rule with its
half-open-cell nudge. -/
theorem C5_cellIndex_floor_on_grid (o s : List ℚ) (dims : List ℕ)
    (xp : List ℚ) (h : ∀ q ∈ quotients o s xp, 0 ≤ q) :
    cellIndex o s dims xp = cellIndexSpec o s dims xp := by
  unfold cellIndex cellIndexSpec
  congr 1
  exact List.map_congr_left (fun q hq => cellIndexComp_eq_spec_of_nonneg (h q hq))

/-- Witness for C5's amended theorem at the in-grid coordinate `3/2`. -/
theorem C5_cellIndex_floor_on_grid_witness :
    (∀ q ∈ quotients [0] [1] [(3/2 : ℚ)], 0 ≤ q) ∧
    cellIndex [0] [1] [10] [(3/2 : ℚ)] = cellIndexSpec [0] [1] [10] [(3/2 : ℚ)] :=
  ⟨by with_unfolding_all decide,
    C5_cellIndex_floor_on_grid [0] [1] [10] [(3/2 : ℚ)]
      (by with_unfolding_all decide)⟩

/-- C3: while `nit < mh_iter_min`, a candidate whose truncation-rule image
differs from the required value is accepted exactly when the uniform draw
falls below `accept_init * (1 - nit/mh_iter_min) ^ accept_pow`; that
schedule equals `accept_init` at `nit = 0` and is strictly decreasing in
`nit` over `0 ≤ nit < mh_iter_min` (for a positive `accept_init` and
exponent), decreasing toward 0 as `nit` approaches `mh_iter_min`. -/
theorem C3_accept_schedule (P : MHParams) (O : MHOracle) (nit k : ℕ)
    (st : ℕ → ℚ × ℚ) (c : ℚ × ℚ)
    (h1 : nit < P.mh_iter_min) (h2 : P.flag c.1 c.2 ≠ P.v k) :
    mhAccept P O nit k st c =
      (if O.coin nit k <
          P.accept_init * (1 - (nit : ℚ) / (P.mh_iter_min : ℚ)) ^ P.accept_pow
        then Function.update st k c else st) ∧
    P.accept_init * (1 - (0 : ℚ) / (P.mh_iter_min : ℚ)) ^ P.accept_pow
      = P.accept_init ∧
    (∀ n1 n2 : ℕ, n1 < n2 → n2 < P.mh_iter_min →
      0 < P.accept_init → 0 < P.accept_pow →
      P.accept_init * (1 - (n2 : ℚ) / (P.mh_iter_min : ℚ)) ^ P.accept_pow <
        P.accept_init * (1 - (n1 : ℚ) / (P.mh_iter_min : ℚ)) ^ P.accept_pow) := by
  refine ⟨?_, by simp, ?_⟩
  · unfold mhAccept pAccept
    rw [if_neg h2]
    by_cases hc : O.coin nit k <
        P.accept_init * (1 - (nit : ℚ) / (P.mh_iter_min : ℚ)) ^ P.accept_pow
    · rw [if_pos ⟨h1, hc⟩, if_pos hc]
    · rw [if_neg (fun hh => hc hh.2), if_neg hc]
  · intro n1 n2 h12 h2m ha hp
    have hm : (0 : ℚ) < (P.mh_iter_min : ℚ) := by
      exact_mod_cast lt_of_le_of_lt (Nat.zero_le n2) h2m
    have hdiv : (n1 : ℚ) / (P.mh_iter_min : ℚ) < (n2 : ℚ) / (P.mh_iter_min : ℚ) :=
      (div_lt_div_iff_of_pos_right hm).mpr (by exact_mod_cast h12)
    have hone : (n2 : ℚ) / (P.mh_iter_min : ℚ) < 1 := by
      rw [div_lt_one hm]; exact_mod_cast h2m
    have hpow := pow_lt_pow_left₀ (by linarith :
        1 - (n2 : ℚ) / (P.mh_iter_min : ℚ) < 1 - (n1 : ℚ) / (P.mh_iter_min : ℚ))
      (by linarith) (Nat.pos_iff_ne_zero.mp hp)
    exact mul_lt_mul_of_pos_left hpow ha

theorem npUnique_perm_dedup (l : List ℤ) : List.Perm (npUnique l) l.dedup :=
  List.perm_insertionSort _ _

theorem mem_npUnique {i : ℤ} {l : List ℤ} : i ∈ npUnique l ↔ i ∈ l :=
  ((npUnique_perm_dedup l).mem_iff).trans List.mem_dedup

theorem nodup_npUnique (l : List ℤ) : (npUnique l).Nodup :=
  ((npUnique_perm_dedup l).nodup_iff).mpr (List.nodup_dedup l)

theorem length_npUnique (l : List ℤ) : (npUnique l).length = l.dedup.length :=
  (npUnique_perm_dedup l).length_eq

theorem npUnique_length_eq_iff_nodup {l : List ℤ} :
    (npUnique l).length = l.length ↔ l.Nodup := by
  rw [length_npUnique]
  constructor
  · intro h
    exact List.dedup_eq_self.mp ((List.dedup_sublist l).eq_of_length h)
  · intro h
    rw [List.dedup_eq_self.mpr h]

theorem one_lt_dedup_length {α : Type _} [DecidableEq α] {l : List α} {a b : α}
    (ha : a ∈ l) (hb : b ∈ l) (hab : a ≠ b) : 1 < l.dedup.length := by
  have ha2 : a ∈ l.dedup := List.mem_dedup.mpr ha
  have hb2 : b ∈ l.dedup := List.mem_dedup.mpr hb
  match hd : l.dedup with
  | [] => rw [hd] at ha2; cases ha2
  | [x] =>
    rw [hd] at ha2 hb2
    exact absurd ((List.mem_singleton.mp ha2).trans
      (List.mem_singleton.mp hb2).symm) hab
  | x :: y :: t => simp [List.length_cons]

theorem zip_map_self {A : Type _} {B : Type _} (f : A → B) (xs : List A) :
    (xs.map f).zip xs = xs.map (fun a => (f a, a)) := by
  have h := List.zip_map' f id xs
  rwa [List.map_id] at h

theorem group_append {A : Type _} (il : List ℤ) (ys : List A) (j : ℤ) (b : A)
    (i : ℤ) (h : il.length = ys.length) :
    (((il ++ [j]).zip (ys ++ [b])).filter (fun p => decide (p.1 = i))).map
        Prod.snd =
      ((il.zip ys).filter (fun p => decide (p.1 = i))).map Prod.snd ++
        (if j = i then [b] else []) := by
  rw [List.zip_append h, List.filter_append, List.map_append]
  congr 1
  by_cases hj : j = i
  · simp [hj]
  · simp [hj]

theorem groupVals_append (il : List ℤ) (vs : List ℚ) (j : ℤ) (u : ℚ) (i : ℤ)
    (h : il.length = vs.length) :
    groupVals (il ++ [j]) (vs ++ [u]) i =
      groupVals il vs i ++ (if j = i then [u] else []) := by
  rw [groupVals, groupVals]
  exact group_append il vs j u i h

theorem groupCoords_append (il : List ℤ) (xs : List (List ℚ)) (j : ℤ)
    (b : List ℚ) (i : ℤ) (h : il.length = xs.length) :
    groupCoords (il ++ [j]) (xs ++ [b]) i =
      groupCoords il xs i ++ (if j = i then [b] else []) := by
  rw [groupCoords, groupCoords]
  exact group_append il xs j b i h

theorem filter_zip_ne_nil {A : Type _} {i : ℤ} :
    ∀ (il : List ℤ) (ys : List A), i ∈ il → il.length = ys.length →
      (il.zip ys).filter (fun p => decide (p.1 = i)) ≠ [] := by
  intro il
  induction il with
  | nil => intro ys hi _; cases hi
  | cons j t ih =>
    intro ys hi h
    cases ys with
    | nil => simp at h
    | cons b w =>
      rw [List.zip_cons_cons]
      by_cases hj : j = i
      · rw [List.filter_cons_of_pos (by simp [hj])]
        simp
      · rw [List.filter_cons_of_neg (by simp [hj])]
        exact ih w (List.mem_of_ne_of_mem (fun he => hj he.symm) hi)
          (by simpa using h)

theorem group_ne_nil {A : Type _} (il : List ℤ) (ys : List A) (i : ℤ)
    (hi : i ∈ il) (h : il.length = ys.length) :
    ((il.zip ys).filter (fun p => decide (p.1 = i))).map Prod.snd ≠ [] := by
  intro hc
  exact filter_zip_ne_nil il ys hi h (List.map_eq_nil_iff.mp hc)

theorem headD_append_of_ne_nil {A : Type _} {g : List A} (h : g ≠ [])
    (t : List A) (d : A) : (g ++ t).headD d = g.headD d := by
  cases g with
  | nil => exact absurd rfl h
  | cons a l => rfl

theorem length_le_one_of_forall_eq {A : Type _} {l : List A} {u : A}
    (hnd : l.Nodup) (h : ∀ a ∈ l, a = u) : l.length ≤ 1 := by
  cases l with
  | nil => simp
  | cons a t =>
    cases t with
    | nil => simp
    | cons b r =>
      exfalso
      have hab : a = b :=
        (h a (List.mem_cons_self a _)).trans
          (h b (List.mem_cons_of_mem a (List.mem_cons_self b r))).symm
      exact (List.nodup_cons.mp hnd).1 (hab ▸ List.mem_cons_self b r)

theorem dedup_length_append_le_one {A : Type _} [DecidableEq A] {l : List A}
    {u : A} (hu : u ∈ l) (h : l.dedup.length ≤ 1) :
    (l ++ [u]).dedup.length ≤ 1 := by
  have hall : ∀ a ∈ l, a = u := by
    intro a ha
    have ha2 : a ∈ l.dedup := List.mem_dedup.mpr ha
    have hu2 : u ∈ l.dedup := List.mem_dedup.mpr hu
    match hdd : l.dedup, h with
    | [], _ => rw [hdd] at ha2; cases ha2
    | [x], _ =>
      rw [hdd] at ha2 hu2
      exact (List.mem_singleton.mp ha2).trans (List.mem_singleton.mp hu2).symm
    | x :: y :: t, h2 => simp at h2
  apply length_le_one_of_forall_eq (List.nodup_dedup _)
  intro a ha
  rcases List.mem_append.mp (List.mem_dedup.mp ha) with h1 | h1
  · exact hall a h1
  · simpa using h1

theorem filter_fst_length_le_one {A : Type _} {i : ℤ} :
    ∀ {l : List (ℤ × A)}, (l.map Prod.fst).Nodup →
      (l.filter (fun p => decide (p.1 = i))).length ≤ 1 := by
  intro l
  induction l with
  | nil => intro _; simp
  | cons a t ih =>
    intro h
    rw [List.map_cons, List.nodup_cons] at h
    by_cases ha : a.1 = i
    · rw [List.filter_cons_of_pos (by simp [ha])]
      have ht : t.filter (fun p => decide (p.1 = i)) = [] := by
        rw [List.filter_eq_nil_iff]
        intro p hp
        simp only [decide_eq_true_eq]
        intro hpi
        exact h.1 (by rw [ha, ← hpi]; exact List.mem_map_of_mem Prod.fst hp)
      rw [ht]
      simp
    · rw [List.filter_cons_of_neg (by simp [ha])]
      exact ih h.2

theorem groupVals_length_le_one {il : List ℤ} {vs : List ℚ} {i : ℤ}
    (hnd : il.Nodup) (h : il.length = vs.length) :
    (groupVals il vs i).length ≤ 1 := by
  rw [groupVals, List.length_map]
  exact filter_fst_length_le_one (by rwa [List.map_fst_zip _ _ (le_of_eq h)])

theorem find?_map_keyed {C : Type _} (key : C → ℤ) (g : ℤ → C) (i : ℤ) :
    ∀ (uq : List ℤ), (∀ j ∈ uq, key (g j) = j) →
      (uq.map g).find? (fun e => decide (key e = i)) =
        if i ∈ uq then some (g i) else none := by
  intro uq
  induction uq with
  | nil => intro _; simp
  | cons j t ih =>
    intro hk
    rw [List.map_cons]
    by_cases hj : j = i
    · subst hj
      rw [List.find?_cons_of_pos _ (by simp [hk j (List.mem_cons_self j t)]),
        if_pos (List.mem_cons_self j t)]
    · rw [List.find?_cons_of_neg _ (by simp [hk j (List.mem_cons_self j t), hj]),
        ih (fun a ha => hk a (List.mem_cons_of_mem j ha))]
      by_cases hit : i ∈ t
      · rw [if_pos hit, if_pos (List.mem_cons_of_mem j hit)]
      · rw [if_neg hit, if_neg (fun hmem => by
          rcases List.mem_cons.mp hmem with h1 | h1
          · exact hj h1.symm
          · exact hit h1)]

theorem groupCoords_map_self (f : List ℚ → ℤ) (xs : List (List ℚ)) (i : ℤ) :
    groupCoords (xs.map f) xs i = xs.filter (fun a => decide (f a = i)) := by
  rw [groupCoords, zip_map_self, List.filter_map, List.map_map]
  have h1 : (Prod.snd ∘ fun a : List ℚ => (f a, a)) = id := rfl
  have h2 : ((fun p : ℤ × List ℚ => decide (p.1 = i)) ∘ fun a => (f a, a)) =
      (fun a => decide (f a = i)) := rfl
  rw [h1, h2, List.map_id]

theorem groupVals_map_pairs (f : List ℚ → ℤ) (xs : List (List ℚ))
    (vs : List ℚ) (i : ℤ) :
    groupVals (xs.map f) vs i =
      ((xs.zip vs).filter (fun p => decide (f p.1 = i))).map Prod.snd := by
  rw [groupVals, List.zip_map_left, List.filter_map, List.map_map]
  rfl

theorem map_fst_filter_zip (f : List ℚ → ℤ) (i : ℤ) :
    ∀ (xs : List (List ℚ)) (vs : List ℚ), xs.length = vs.length →
      ((xs.zip vs).filter (fun p => decide (f p.1 = i))).map Prod.fst =
        xs.filter (fun a => decide (f a = i)) := by
  intro xs
  induction xs with
  | nil => intro vs _; simp
  | cons a t ih =>
    intro vs h
    cases vs with
    | nil => simp at h
    | cons b w =>
      rw [List.zip_cons_cons]
      by_cases ha : f a = i
      · rw [List.filter_cons_of_pos (by simp [ha]),
          List.filter_cons_of_pos (by simp [ha]), List.map_cons,
          ih w (by simpa using h)]
      · rw [List.filter_cons_of_neg (by simp [ha]),
          List.filter_cons_of_neg (by simp [ha])]
        exact ih w (by simpa using h)

theorem rep_key (f : List ℚ → ℤ) (xs : List (List ℚ)) (i : ℤ)
    (hi : i ∈ xs.map f) :
    f ((groupCoords (xs.map f) xs i).headD []) = i := by
  rw [groupCoords_map_self]
  rcases List.mem_map.mp hi with ⟨a, ha, rfl⟩
  cases hg : xs.filter (fun b => decide (f b = f a)) with
  | nil =>
    exfalso
    have hmem : a ∈ xs.filter (fun b => decide (f b = f a)) :=
      List.mem_filter.mpr ⟨ha, by simp⟩
    rw [hg] at hmem
    cases hmem
  | cons b t =>
    have hb : b ∈ xs.filter (fun b2 => decide (f b2 = f a)) := by
      rw [hg]
      exact List.mem_cons_self _ _
    have hfb := List.of_mem_filter hb
    simpa using hfb

/-- C4: two conditioning points mapped to the same flattened grid cell with
different required values make the whole call fail before any simulation:
the data preparation returns the error outcome, and the call returns the
empty (`None`) result without running any realization attempt. -/
theorem C4_conflicting_points_fail (o s : List ℚ) (dims : List ℕ)
    (xs : List (List ℚ)) (vs : List ℚ) (c1 c2 : List ℚ) (u1 u2 : ℚ)
    (hsub : [(c1, u1), (c2, u2)].Sublist (xs.zip vs))
    (hlen : xs.length = vs.length)
    (hidx : cellIndex o s dims c1 = cellIndex o s dims c2)
    (hval : u1 ≠ u2) :
    prepCond o s dims xs vs = none ∧
    ∀ rest, pgsCond o s dims xs vs rest = none := by
  have hclen : (condIdx o s dims xs).length = xs.length := by
    rw [condIdx, List.length_map]
  have hzip : (condIdx o s dims xs).zip vs =
      (xs.zip vs).map (Prod.map (cellIndex o s dims) id) := by
    rw [condIdx, List.zip_map_left]
  have hsub2 : [(cellIndex o s dims c1, u1), (cellIndex o s dims c2, u2)].Sublist
      ((condIdx o s dims xs).zip vs) := by
    rw [hzip]
    exact hsub.map (Prod.map (cellIndex o s dims) id)
  have hidxsub : [cellIndex o s dims c1, cellIndex o s dims c2].Sublist
      (condIdx o s dims xs) := by
    have := hsub2.map Prod.fst
    rwa [List.map_fst_zip _ _ (by rw [hclen, hlen])] at this
  have hnotnodup : ¬ (condIdx o s dims xs).Nodup := by
    intro hnd
    rw [hidx] at hidxsub
    have := hidxsub.nodup hnd
    simp at this
  have hlen2 : ¬ (npUnique (condIdx o s dims xs)).length = xs.length := by
    intro h
    exact hnotnodup (npUnique_length_eq_iff_nodup.mp (h.trans hclen.symm))
  have hmem1 : (cellIndex o s dims c1, u1) ∈ (condIdx o s dims xs).zip vs :=
    hsub2.subset (by simp)
  have hmem2 : (cellIndex o s dims c2, u2) ∈ (condIdx o s dims xs).zip vs :=
    hsub2.subset (by simp)
  have hconf : valueConflict (condIdx o s dims xs) vs = true := by
    rw [valueConflict, List.any_eq_true]
    refine ⟨cellIndex o s dims c1,
      mem_npUnique.mpr (List.of_mem_zip hmem1).1, ?_⟩
    rw [decide_eq_true_iff]
    have hu1 : u1 ∈ groupVals (condIdx o s dims xs) vs (cellIndex o s dims c1) := by
      rw [groupVals]
      exact List.mem_map_of_mem Prod.snd
        (List.mem_filter.mpr ⟨hmem1, by simp⟩)
    have hu2 : u2 ∈ groupVals (condIdx o s dims xs) vs (cellIndex o s dims c1) := by
      rw [groupVals]
      refine List.mem_map_of_mem Prod.snd (List.mem_filter.mpr ⟨hmem2, ?_⟩)
      simp [hidx]
    exact one_lt_dedup_length hu1 hu2 hval
  have hprep : prepCond o s dims xs vs = none := by
    rw [prepCond, if_pos hlen, if_neg hlen2, if_pos hconf]
  exact ⟨hprep, fun rest => by rw [pgsCond, hprep]; rfl⟩

/-- Witness for C4: the coordinate `0` supplied twice with required values
`0` and `1` on a 1D grid of 10 unit cells. -/
theorem C4_witness :
    ([([(0 : ℚ)], (0 : ℚ)), ([(0 : ℚ)], (1 : ℚ))].Sublist
        ([[(0 : ℚ)], [(0 : ℚ)]].zip [(0 : ℚ), (1 : ℚ)]) ∧
      cellIndex [0] [1] [10] [(0 : ℚ)] = cellIndex [0] [1] [10] [(0 : ℚ)] ∧
      (0 : ℚ) ≠ (1 : ℚ)) ∧
    prepCond [0] [1] [10] [[(0 : ℚ)], [(0 : ℚ)]] [(0 : ℚ), (1 : ℚ)] = none :=
  ⟨⟨by with_unfolding_all decide, rfl, by with_unfolding_all decide⟩,
    (C4_conflicting_points_fail [0] [1] [10] [[(0 : ℚ)], [(0 : ℚ)]]
      [(0 : ℚ), (1 : ℚ)] [(0 : ℚ)] [(0 : ℚ)] (0 : ℚ) (1 : ℚ)
      (by with_unfolding_all decide) (by decide) rfl
      (by with_unfolding_all decide)).1⟩

theorem lookupIdx_maps (o s : List ℚ) (dims : List ℕ) (U : List ℤ)
    (g1 : ℤ → List ℚ) (g2 : ℤ → ℚ)
    (hk : ∀ j ∈ U, cellIndex o s dims (g1 j) = j) (i : ℤ) :
    lookupIdx o s dims (U.map g1, U.map g2) i =
      if i ∈ U then some (g1 i, g2 i) else none := by
  rw [lookupIdx]
  show ((U.map g1).zip (U.map g2)).find? _ = _
  rw [List.zip_map']
  exact find?_map_keyed (fun e => cellIndex o s dims e.1)
    (fun j => (g1 j, g2 j)) i U (fun j hj => hk j hj)

theorem lookupIdx_raw (o s : List ℚ) (dims : List ℕ) (xs : List (List ℚ))
    (vs : List ℚ) (i : ℤ) :
    lookupIdx o s dims (xs, vs) i =
      ((xs.zip vs).filter
        (fun p => decide (cellIndex o s dims p.1 = i))).head? := by
  rw [lookupIdx]
  show (xs.zip vs).find? _ = _
  rw [find?_eq_head?_filter]

/-- C6: raw conditioning points falling in the same grid cell with equal
required values are deduplicated to one representative per unique cell index
and the call proceeds; in particular, supplying an already-present
conditioning point a second time with the same value yields the same
conditioning set — the same stored (coordinate, value) entry for every
grid-cell index — as supplying it once. -/
theorem C6_dedup_idempotent (o s : List ℚ) (dims : List ℕ)
    (xs : List (List ℚ)) (vs : List ℚ) (c : List ℚ) (u : ℚ)
    (out : List (List ℚ) × List ℚ)
    (hlen : xs.length = vs.length)
    (hmem : (c, u) ∈ xs.zip vs)
    (hsome : prepCond o s dims xs vs = some out) :
    ∃ out2, prepCond o s dims (xs ++ [c]) (vs ++ [u]) = some out2 ∧
      out2.1.length = (npUnique (condIdx o s dims (xs ++ [c]))).length ∧
      ∀ i, lookupIdx o s dims out2 i = lookupIdx o s dims out i := by
  have hcx : c ∈ xs := (List.of_mem_zip hmem).1
  have hcid : condIdx o s dims xs = xs.map (cellIndex o s dims) := rfl
  have hil' : condIdx o s dims (xs ++ [c]) =
      condIdx o s dims xs ++ [cellIndex o s dims c] := by
    rw [condIdx, condIdx, List.map_append]
    rfl
  have hclen : (condIdx o s dims xs).length = xs.length := by
    rw [condIdx, List.length_map]
  have hfc : cellIndex o s dims c ∈ condIdx o s dims xs :=
    List.mem_map_of_mem _ hcx
  have hpair : (cellIndex o s dims c, u) ∈ (condIdx o s dims xs).zip vs := by
    rw [hcid, List.zip_map_left]
    exact List.mem_map_of_mem (Prod.map (cellIndex o s dims) id) hmem
  have huq : npUnique (condIdx o s dims xs ++ [cellIndex o s dims c]) =
      npUnique (condIdx o s dims xs) := by
    have hperm : List.Perm
        (npUnique (condIdx o s dims xs ++ [cellIndex o s dims c]))
        (npUnique (condIdx o s dims xs)) := by
      apply (List.perm_ext_iff_of_nodup (nodup_npUnique _)
        (nodup_npUnique _)).mpr
      intro a
      rw [mem_npUnique, mem_npUnique, List.mem_append]
      constructor
      · rintro (h1 | h1)
        · exact h1
        · rw [List.mem_singleton.mp h1]
          exact hfc
      · exact fun h1 => Or.inl h1
    exact List.eq_of_perm_of_sorted hperm (List.sorted_insertionSort _ _)
      (List.sorted_insertionSort _ _)
  have hUb : (npUnique (condIdx o s dims xs)).length ≤ xs.length := by
    rw [length_npUnique]
    exact le_trans (List.dedup_sublist _).length_le (le_of_eq hclen)
  have hlen2 : (xs ++ [c]).length = (vs ++ [u]).length := by
    simp [hlen]
  have hneq : ¬ (npUnique (condIdx o s dims (xs ++ [c]))).length =
      (xs ++ [c]).length := by
    rw [hil', huq, List.length_append, List.length_singleton]
    intro h
    omega
  rw [prepCond, if_pos hlen] at hsome
  have hgood : ∀ i ∈ npUnique (condIdx o s dims xs),
      (groupVals (condIdx o s dims xs) vs i).dedup.length ≤ 1 := by
    by_cases hA : (npUnique (condIdx o s dims xs)).length = xs.length
    · intro i _
      have hnd : (condIdx o s dims xs).Nodup :=
        npUnique_length_eq_iff_nodup.mp (hA.trans hclen.symm)
      exact le_trans (List.dedup_sublist _).length_le
        (groupVals_length_le_one hnd (hclen.trans hlen))
    · rw [if_neg hA] at hsome
      intro i hi
      cases hvc : valueConflict (condIdx o s dims xs) vs with
      | true => rw [if_pos hvc] at hsome; exact Option.noConfusion hsome
      | false =>
        rw [valueConflict, List.any_eq_false] at hvc
        exact Nat.le_of_not_lt (by simpa using hvc i hi)
  have hout : (out = (xs, vs)) ∨
      out = ((npUnique (condIdx o s dims xs)).map (fun j =>
          (groupCoords (condIdx o s dims xs) xs j).headD []),
        (npUnique (condIdx o s dims xs)).map (fun j =>
          (groupVals (condIdx o s dims xs) vs j).headD 0)) := by
    by_cases hA : (npUnique (condIdx o s dims xs)).length = xs.length
    · rw [if_pos hA] at hsome
      exact Or.inl (Option.some.inj hsome).symm
    · rw [if_neg hA] at hsome
      cases hvc : valueConflict (condIdx o s dims xs) vs with
      | true => rw [if_pos hvc] at hsome; exact Option.noConfusion hsome
      | false =>
        rw [if_neg (by simp [hvc])] at hsome
        exact Or.inr (Option.some.inj hsome).symm
  have hu_mem : u ∈ groupVals (condIdx o s dims xs) vs
      (cellIndex o s dims c) := by
    rw [groupVals]
    exact List.mem_map_of_mem Prod.snd (List.mem_filter.mpr ⟨hpair, by simp⟩)
  have hvc2 : valueConflict (condIdx o s dims (xs ++ [c])) (vs ++ [u])
      = false := by
    rw [hil', valueConflict, huq, List.any_eq_false]
    intro i hi
    rw [groupVals_append _ _ _ _ _ (hclen.trans hlen)]
    simp only [decide_eq_true_eq, Bool.not_eq_true, decide_eq_false_iff_not,
      not_lt]
    by_cases hci : cellIndex o s dims c = i
    · rw [if_pos hci, ← hci]
      exact dedup_length_append_le_one hu_mem
        (hgood _ (mem_npUnique.mpr hfc))
    · rw [if_neg hci, List.append_nil]
      exact hgood i hi
  have hprep2 : prepCond o s dims (xs ++ [c]) (vs ++ [u]) = some
      ((npUnique (condIdx o s dims (xs ++ [c]))).map (fun j =>
          (groupCoords (condIdx o s dims (xs ++ [c])) (xs ++ [c]) j).headD []),
       (npUnique (condIdx o s dims (xs ++ [c]))).map (fun j =>
          (groupVals (condIdx o s dims (xs ++ [c])) (vs ++ [u]) j).headD 0)) := by
    rw [prepCond, if_pos hlen2, if_neg hneq, if_neg (by simp [hvc2])]
  refine ⟨_, hprep2, by rw [List.length_map], fun i => ?_⟩
  have hkey2 : ∀ j ∈ npUnique (condIdx o s dims (xs ++ [c])),
      cellIndex o s dims
        ((groupCoords (condIdx o s dims (xs ++ [c])) (xs ++ [c]) j).headD [])
        = j := by
    intro j hj
    exact rep_key (cellIndex o s dims) (xs ++ [c]) j (mem_npUnique.mp hj)
  rw [lookupIdx_maps o s dims _ _ _ hkey2 i, hil', huq]
  rcases hout with rfl | rfl
  · rw [lookupIdx_raw]
    by_cases hiU : i ∈ npUnique (condIdx o s dims xs)
    · rw [if_pos hiU]
      have hiI : i ∈ condIdx o s dims xs := mem_npUnique.mp hiU
      have hgcne : groupCoords (condIdx o s dims xs) xs i ≠ [] := by
        rw [groupCoords]
        exact group_ne_nil _ _ _ hiI hclen
      have hgvne : groupVals (condIdx o s dims xs) vs i ≠ [] := by
        rw [groupVals]
        exact group_ne_nil _ _ _ hiI (hclen.trans hlen)
      rw [groupCoords_append _ _ _ _ _ hclen, headD_append_of_ne_nil hgcne,
        groupVals_append _ _ _ _ _ (hclen.trans hlen),
        headD_append_of_ne_nil hgvne, hcid, groupCoords_map_self,
        groupVals_map_pairs,
        ← map_fst_filter_zip (cellIndex o s dims) i xs vs hlen]
      have hFne : (xs.zip vs).filter
          (fun p => decide (cellIndex o s dims p.1 = i)) ≠ [] := by
        intro h0
        apply hgvne
        rw [hcid, groupVals_map_pairs, h0]
        rfl
      cases hF : (xs.zip vs).filter
          (fun p => decide (cellIndex o s dims p.1 = i)) with
      | nil => exact absurd hF hFne
      | cons p F2 => simp
    · rw [if_neg hiU]
      have hF0 : (xs.zip vs).filter
          (fun p => decide (cellIndex o s dims p.1 = i)) = [] := by
        rw [List.filter_eq_nil_iff]
        intro p hp
        simp only [decide_eq_true_eq]
        intro hpi
        exact hiU (mem_npUnique.mpr
          (hpi ▸ List.mem_map_of_mem (cellIndex o s dims)
            (List.of_mem_zip hp).1))
      rw [hF0]
      rfl
  · have hkeyB : ∀ j ∈ npUnique (condIdx o s dims xs),
        cellIndex o s dims
          ((groupCoords (condIdx o s dims xs) xs j).headD []) = j := by
      intro j hj
      exact rep_key (cellIndex o s dims) xs j (mem_npUnique.mp hj)
    rw [lookupIdx_maps o s dims _ _ _ hkeyB i]
    by_cases hiU : i ∈ npUnique (condIdx o s dims xs)
    · rw [if_pos hiU, if_pos hiU]
      have hiI : i ∈ condIdx o s dims xs := mem_npUnique.mp hiU
      have hgcne : groupCoords (condIdx o s dims xs) xs i ≠ [] := by
        rw [groupCoords]
        exact group_ne_nil _ _ _ hiI hclen
      have hgvne : groupVals (condIdx o s dims xs) vs i ≠ [] := by
        rw [groupVals]
        exact group_ne_nil _ _ _ hiI (hclen.trans hlen)
      rw [groupCoords_append _ _ _ _ _ hclen, headD_append_of_ne_nil hgcne,
        groupVals_append _ _ _ _ _ (hclen.trans hlen),
        headD_append_of_ne_nil hgvne]
    · rw [if_neg hiU, if_neg hiU]

/-- Witness for C6: the single point `2` with value `7`, supplied once and
then a second time. -/
theorem C6_dedup_idempotent_witness :
    ([[(2 : ℚ)]].length = [(7 : ℚ)].length ∧
      ([(2 : ℚ)], (7 : ℚ)) ∈ [[(2 : ℚ)]].zip [(7 : ℚ)] ∧
      prepCond [0] [1] [10] [[(2 : ℚ)]] [(7 : ℚ)] = some ([[(2 : ℚ)]], [(7 : ℚ)])) ∧
    ∃ out2, prepCond [0] [1] [10] ([[(2 : ℚ)]] ++ [[(2 : ℚ)]])
        ([(7 : ℚ)] ++ [(7 : ℚ)]) = some out2 ∧
      out2.1.length =
        (npUnique (condIdx [0] [1] [10] ([[(2 : ℚ)]] ++ [[(2 : ℚ)]]))).length ∧
      ∀ i, lookupIdx [0] [1] [10] out2 i =
        lookupIdx [0] [1] [10] ([[(2 : ℚ)]], [(7 : ℚ)]) i :=
  ⟨⟨by decide, by with_unfolding_all decide, by with_unfolding_all decide⟩,
    C6_dedup_idempotent [0] [1] [10] [[(2 : ℚ)]] [(7 : ℚ)] [(2 : ℚ)] (7 : ℚ)
      ([[(2 : ℚ)]], [(7 : ℚ)]) (by decide) (by with_unfolding_all decide)
      (by with_unfolding_all decide)⟩

theorem find?_key_none (k : PKey) :
    ∀ bag : List (PKey × PVal), bag.any (fun p => decide (p.1 = k)) = false →
      bag.find? (fun p => decide (p.1 = k)) = none := by
  intro bag
  induction bag with
  | nil => intro _; rfl
  | cons a t ih =>
    intro h
    rw [List.any_cons, Bool.or_eq_false_iff] at h
    rw [List.find?_cons_of_neg _ (by simpa using h.1)]
    exact ih h.2

theorem find?_append_left_none {A : Type _} {p : A → Bool} {l1 l2 : List A}
    (h : l1.find? p = none) : (l1 ++ l2).find? p = l2.find? p := by
  rw [List.find?_append, h]
  rfl

theorem find?_map_set_same (k : PKey) (w : PVal) :
    ∀ bag : List (PKey × PVal), bag.any (fun p => decide (p.1 = k)) = true →
      (bag.map (fun p => if p.1 = k then (k, w) else p)).find?
        (fun p => decide (p.1 = k)) = some (k, w) := by
  intro bag
  induction bag with
  | nil => intro h; simp at h
  | cons a t ih =>
    intro h
    rw [List.map_cons]
    by_cases hk : a.1 = k
    · rw [if_pos hk, List.find?_cons_of_pos _ (by simp)]
    · rw [if_neg hk, List.find?_cons_of_neg _ (by simpa using hk)]
      refine ih ?_
      rw [List.any_cons, Bool.or_eq_true_iff] at h
      rcases h with h | h
      · exact absurd (by simpa using h) hk
      · exact h

theorem find?_map_set_ne {k k2 : PKey} (w : PVal) (hne : k2 ≠ k) :
    ∀ bag : List (PKey × PVal),
      (bag.map (fun p => if p.1 = k then (k, w) else p)).find?
          (fun p => decide (p.1 = k2)) =
        bag.find? (fun p => decide (p.1 = k2)) := by
  intro bag
  induction bag with
  | nil => rfl
  | cons a t ih =>
    rw [List.map_cons]
    by_cases hk : a.1 = k
    · rw [if_pos hk,
        List.find?_cons_of_neg _
          (by simp only [decide_eq_true_eq]; exact fun h => hne h.symm),
        List.find?_cons_of_neg _
          (by simp only [decide_eq_true_eq, hk]; exact fun h => hne h.symm),
        ih]
    · by_cases hk2 : a.1 = k2
      · rw [if_neg hk, List.find?_cons_of_pos _ (by simpa using hk2),
          List.find?_cons_of_pos _ (by simpa using hk2)]
      · rw [if_neg hk, List.find?_cons_of_neg _ (by simpa using hk2),
          List.find?_cons_of_neg _ (by simpa using hk2), ih]

theorem getKey_setKey_self (bag : List (PKey × PVal)) (k : PKey) (w : PVal) :
    getKey (setKey bag k w) k = some w := by
  rw [setKey, getKey]
  by_cases h : bag.any (fun p => decide (p.1 = k)) = true
  · rw [if_pos h, find?_map_set_same k w bag h]
    rfl
  · rw [if_neg h,
      find?_append_left_none (find?_key_none k bag (Bool.eq_false_iff.mpr h)),
      List.find?_cons_of_pos _ (by simp)]
    rfl

theorem getKey_setKey_ne (bag : List (PKey × PVal)) {k k2 : PKey} (w : PVal)
    (hne : k2 ≠ k) : getKey (setKey bag k w) k2 = getKey bag k2 := by
  rw [setKey, getKey, getKey]
  by_cases h : bag.any (fun p => decide (p.1 = k)) = true
  · rw [if_pos h, find?_map_set_ne w hne bag]
  · rw [if_neg h, List.find?_append,
      show ([(k, w)].find? (fun p => decide (p.1 = k2))) = none by
        rw [List.find?_cons_of_neg _
          (by simp only [decide_eq_true_eq]; exact fun h => hne h.symm)]
        rfl]
    cases bag.find? (fun p => decide (p.1 = k2)) <;> rfl

theorem any_key_of_getKey_some {bag : List (PKey × PVal)} {k : PKey}
    {w : PVal} (h : getKey bag k = some w) :
    bag.any (fun p => decide (p.1 = k)) = true := by
  cases hf : bag.find? (fun p => decide (p.1 = k)) with
  | none => rw [getKey, hf] at h; cases h
  | some p =>
    have hmem := List.mem_of_find?_eq_some hf
    have hp := List.find?_some hf
    rw [List.any_eq_true]
    exact ⟨p, hmem, hp⟩

theorem getKey_isSome_of_any {bag : List (PKey × PVal)} {k : PKey}
    (h : bag.any (fun p => decide (p.1 = k)) = true) :
    ∃ w, getKey bag k = some w := by
  rw [List.any_eq_true] at h
  rcases h with ⟨p, hp, hpk⟩
  cases hf : bag.find? (fun p => decide (p.1 = k)) with
  | none =>
    rw [List.find?_eq_none] at hf
    exact absurd hpk (hf p hp)
  | some q => exact ⟨q.2, by rw [getKey, hf]; rfl⟩

theorem updateParams_cov_eq (meanRes varArr meanDet : List ℚ)
    (bag : List (PKey × PVal)) :
    updateParams true meanRes (some varArr) meanDet bag =
      (if (setKey (setKey bag .mean (.arr meanRes)) .var (.arr varArr)).any
          (fun p => decide (p.1 = PKey.verbose)) then
        setKey (setKey bag .mean (.arr meanRes)) .var (.arr varArr)
      else
        setKey (setKey (setKey bag .mean (.arr meanRes)) .var (.arr varArr))
          .verbose (.nat 0)) := rfl

/-- C10: before simulation the call writes into the caller-supplied
parameter bags: with a covariance model present it overwrites (or inserts)
`mean` with the resolved per-cell array and `var` with the resolved variance
array, and it inserts `verbose = 0` exactly when that key is absent (keeping
any present value); starting from the empty bag — the shared mutable default
`{}` of the python signature — the call leaves the bag changed, so the
default object accumulates these keys across successive calls. -/
theorem C10_params_mutated (meanRes varArr meanDet : List ℚ)
    (bag : List (PKey × PVal)) (cov : Bool) (varRes : Option (List ℚ))
    (hcov : cov = true) (hvar : varRes = some varArr) :
    getKey (updateParams cov meanRes varRes meanDet bag) .mean
        = some (.arr meanRes) ∧
    getKey (updateParams cov meanRes varRes meanDet bag) .var
        = some (.arr varArr) ∧
    (getKey bag .verbose = none →
      getKey (updateParams cov meanRes varRes meanDet bag) .verbose
        = some (.nat 0)) ∧
    (∀ w, getKey bag .verbose = some w →
      getKey (updateParams cov meanRes varRes meanDet bag) .verbose
        = some w) ∧
    updateParams cov meanRes varRes meanDet [] ≠ [] := by
  subst hcov hvar
  have h5 : updateParams true meanRes (some varArr) meanDet [] ≠ [] := by
    rw [updateParams_cov_eq]
    split
    · intro h
      exact absurd (congrArg List.length h) (by simp [setKey])
    · intro h
      exact absurd (congrArg List.length h) (by simp [setKey])
  rw [updateParams_cov_eq]
  by_cases hvb :
      (setKey (setKey bag .mean (.arr meanRes)) .var (.arr varArr)).any
        (fun p => decide (p.1 = PKey.verbose)) = true
  · rw [if_pos hvb]
    refine ⟨?_, ?_, ?_, ?_, h5⟩
    · rw [getKey_setKey_ne _ _ (by simp), getKey_setKey_self]
    · rw [getKey_setKey_self]
    · intro habs
      exfalso
      rcases getKey_isSome_of_any hvb with ⟨w, hw⟩
      rw [getKey_setKey_ne _ _ (by simp), getKey_setKey_ne _ _ (by simp),
        habs] at hw
      cases hw
    · intro w hw
      rw [getKey_setKey_ne _ _ (by simp), getKey_setKey_ne _ _ (by simp)]
      exact hw
  · rw [if_neg hvb]
    refine ⟨?_, ?_, ?_, ?_, h5⟩
    · rw [getKey_setKey_ne _ _ (by simp), getKey_setKey_ne _ _ (by simp),
        getKey_setKey_self]
    · rw [getKey_setKey_ne _ _ (by simp), getKey_setKey_self]
    · intro _
      rw [getKey_setKey_self]
    · intro w hw
      exfalso
      have h2 : getKey (setKey (setKey bag .mean (.arr meanRes)) .var
          (.arr varArr)) .verbose = some w := by
        rw [getKey_setKey_ne _ _ (by simp), getKey_setKey_ne _ _ (by simp)]
        exact hw
      exact hvb (any_key_of_getKey_some h2)

/-- Witness for C10 on the empty default bag, a resolved mean array `[1]`
and variance array `[2]`. -/
theorem C10_params_mutated_witness :
    (true = true ∧ (some [(2 : ℚ)] : Option (List ℚ)) = some [(2 : ℚ)]) ∧
    (getKey (updateParams true [(1 : ℚ)] (some [(2 : ℚ)]) [] []) .mean
        = some (.arr [(1 : ℚ)]) ∧
      getKey (updateParams true [(1 : ℚ)] (some [(2 : ℚ)]) [] []) .var
        = some (.arr [(2 : ℚ)]) ∧
      (getKey ([] : List (PKey × PVal)) .verbose = none →
        getKey (updateParams true [(1 : ℚ)] (some [(2 : ℚ)]) [] []) .verbose
          = some (.nat 0)) ∧
      (∀ w, getKey ([] : List (PKey × PVal)) .verbose = some w →
        getKey (updateParams true [(1 : ℚ)] (some [(2 : ℚ)]) [] []) .verbose
          = some w) ∧
      updateParams true [(1 : ℚ)] (some [(2 : ℚ)]) [] [] ≠ []) :=
  ⟨⟨rfl, rfl⟩,
    C10_params_mutated [(1 : ℚ)] [(2 : ℚ)] [] [] true (some [(2 : ℚ)])
      rfl rfl⟩

/-- Witness for C3 at `nit = 0 < mh_iter_min = 2` and a candidate `(0, 0)`
whose image under the rule `flag = 0` differs from the required value `1`. -/
theorem C3_accept_schedule_witness :
    ((0 : ℕ) < 2 ∧
      (fun (_ : ℚ) (_ : ℚ) => (0 : ℚ)) (0 : ℚ) (0 : ℚ) ≠ (1 : ℚ)) ∧
    (mhAccept ⟨1, fun _ _ => 0, fun _ => 1, false, false, fun _ _ => 0,
        fun _ _ => 0, 1, 1, fun _ => 0, fun _ => 0, 1/4, 2, 2, 4⟩
      ⟨[0], [0], fun _ => [0], fun _ _ _ => 0, fun _ _ _ => 0,
        fun _ _ _ _ => 0, fun _ _ _ _ => 0, fun _ _ => 1⟩
      0 0 (fun _ => (0, 0)) (0, 0) =
      (if (1 : ℚ) < (1/4 : ℚ) * (1 - (0 : ℚ) / (2 : ℚ)) ^ 2
        then Function.update (fun _ => ((0 : ℚ), (0 : ℚ))) 0 (0, 0)
        else fun _ => (0, 0))) :=
  ⟨⟨by decide, by with_unfolding_all decide⟩,
    (C3_accept_schedule ⟨1, fun _ _ => 0, fun _ => 1, false, false,
        fun _ _ => 0, fun _ _ => 0, 1, 1, fun _ => 0, fun _ => 0, 1/4, 2, 2, 4⟩
      ⟨[0], [0], fun _ => [0], fun _ _ _ => 0, fun _ _ _ => 0,
        fun _ _ _ _ => 0, fun _ _ _ _ => 0, fun _ _ => 1⟩
      0 0 (fun _ => (0, 0)) (0, 0) (by decide) (by with_unfolding_all decide)).1⟩

/-! ### Metropolis-Hastings loop: unfolding and sweep lemmas -/

theorem mhLoopAux_zero (P : MHParams) (O : MHOracle) (nit : ℕ)
    (s : ℕ → ℚ × ℚ) : mhLoopAux P O nit 0 s = ⟨[], s, false, true⟩ := rfl

theorem mhLoopAux_succ_stop (P : MHParams) (O : MHOracle) (nit rem : ℕ)
    (s : ℕ → ℚ × ℚ) (hstop : P.mh_iter_min ≤ nit ∧ nhd P s = P.npt) :
    mhLoopAux P O nit (rem + 1) s = ⟨[nhd P s], s, true, true⟩ := by
  rw [mhLoopAux, if_pos hstop]

theorem mhLoopAux_succ_fail (P : MHParams) (O : MHOracle) (nit rem : ℕ)
    (s : ℕ → ℚ × ℚ) (hstop : ¬(P.mh_iter_min ≤ nit ∧ nhd P s = P.npt))
    (hsw : mhSweep P O nit s = none) :
    mhLoopAux P O nit (rem + 1) s = ⟨[nhd P s], s, false, false⟩ := by
  rw [mhLoopAux, if_neg hstop, hsw]

theorem mhLoopAux_succ_step (P : MHParams) (O : MHOracle) (nit rem : ℕ)
    (s s2 : ℕ → ℚ × ℚ) (hstop : ¬(P.mh_iter_min ≤ nit ∧ nhd P s = P.npt))
    (hsw : mhSweep P O nit s = some s2) :
    mhLoopAux P O nit (rem + 1) s =
      ⟨nhd P s :: (mhLoopAux P O (nit + 1) rem s2).trace,
       (mhLoopAux P O (nit + 1) rem s2).state,
       (mhLoopAux P O (nit + 1) rem s2).stop_mh,
       (mhLoopAux P O (nit + 1) rem s2).sim_ok⟩ := by
  rw [mhLoopAux, if_neg hstop, hsw]

theorem fullTrace_nil (P : MHParams) (s : ℕ → ℚ × ℚ) :
    fullTrace P ⟨[], s, false, true⟩ = [nhd P s] := by
  simp [fullTrace]

theorem fullTrace_stop (P : MHParams) (c : ℕ) (s : ℕ → ℚ × ℚ) :
    fullTrace P ⟨[c], s, true, true⟩ = [c] := by
  simp [fullTrace]

theorem fullTrace_failed (P : MHParams) (c : ℕ) (s : ℕ → ℚ × ℚ) :
    fullTrace P ⟨[c], s, false, false⟩ = [c] := by
  simp [fullTrace]

theorem fullTrace_mk_cons (P : MHParams) (c : ℕ) (r : MHResult) :
    fullTrace P ⟨c :: r.trace, r.state, r.stop_mh, r.sim_ok⟩ =
      c :: fullTrace P r := by
  simp only [fullTrace]
  by_cases hc : r.sim_ok = true ∧ r.stop_mh = false
  · rw [if_pos hc, if_pos hc]
    rfl
  · rw [if_neg hc, if_neg hc]

theorem mhRun_eq (P : MHParams) (O : MHOracle) (s0 : ℕ → ℚ × ℚ) :
    mhRun P O s0 =
      ⟨fullTrace P (mhLoopAux P O 0 P.mh_iter_max s0),
       (mhLoopAux P O 0 P.mh_iter_max s0).state,
       (mhLoopAux P O 0 P.mh_iter_max s0).stop_mh,
       (mhLoopAux P O 0 P.mh_iter_max s0).sim_ok⟩ := by
  rw [mhRun, fullTrace]
  split
  · rfl
  · rfl

theorem mhRun_trace (P : MHParams) (O : MHOracle) (s0 : ℕ → ℚ × ℚ) :
    (mhRun P O s0).trace = fullTrace P (mhLoopAux P O 0 P.mh_iter_max s0) := by
  rw [mhRun_eq]

theorem mhRun_stop (P : MHParams) (O : MHOracle) (s0 : ℕ → ℚ × ℚ) :
    (mhRun P O s0).stop_mh = (mhLoopAux P O 0 P.mh_iter_max s0).stop_mh := by
  rw [mhRun_eq]

theorem mhRun_sim (P : MHParams) (O : MHOracle) (s0 : ℕ → ℚ × ℚ) :
    (mhRun P O s0).sim_ok = (mhLoopAux P O 0 P.mh_iter_max s0).sim_ok := by
  rw [mhRun_eq]

theorem mhRun_state (P : MHParams) (O : MHOracle) (s0 : ℕ → ℚ × ℚ) :
    (mhRun P O s0).state = (mhLoopAux P O 0 P.mh_iter_max s0).state := by
  rw [mhRun_eq]

theorem foldl_bind_none {A B : Type _} (g : B → A → Option A) :
    ∀ l : List B,
      l.foldl (fun acc k => acc.bind (fun st => g k st)) none = none := by
  intro l
  induction l with
  | nil => rfl
  | cons k t ih => rw [List.foldl_cons]; exact ih

theorem fullTrace_head (P : MHParams) (O : MHOracle) (rem nit : ℕ)
    (s : ℕ → ℚ × ℚ) :
    (fullTrace P (mhLoopAux P O nit rem s)).head? = some (nhd P s) := by
  cases rem with
  | zero => rw [mhLoopAux_zero, fullTrace_nil]; rfl
  | succ rem =>
    by_cases hstop : P.mh_iter_min ≤ nit ∧ nhd P s = P.npt
    · rw [mhLoopAux_succ_stop P O nit rem s hstop, fullTrace_stop]; rfl
    · cases hsw : mhSweep P O nit s with
      | none => rw [mhLoopAux_succ_fail P O nit rem s hstop hsw,
          fullTrace_failed]; rfl
      | some s2 => rw [mhLoopAux_succ_step P O nit rem s s2 hstop hsw,
          fullTrace_mk_cons]; rfl

theorem mhSweep_keeps (P : MHParams) (O : MHOracle) {nit : ℕ}
    (hnit : P.mh_iter_min ≤ nit) {s s2 : ℕ → ℚ × ℚ}
    (hsw : mhSweep P O nit s = some s2) :
    ∀ k, hdOk P s k = true → s2 k = s k := by
  rw [mhSweep] at hsw
  suffices h : ∀ (l : List ℕ) (st : ℕ → ℚ × ℚ),
      (∀ k, hdOk P s k = true → st k = s k) →
      l.foldl (fun acc k => acc.bind (fun st =>
        if P.mh_iter_min ≤ nit ∧ hdOk P s k = true then some st
        else (mhCandidate P O nit k st).map (mhAccept P O nit k st)))
        (some st) = some s2 →
      ∀ k, hdOk P s k = true → s2 k = s k by
    exact h (O.perm nit) s (fun _ _ => rfl) hsw
  intro l
  induction l with
  | nil =>
    intro st hst hfold
    rw [List.foldl_nil] at hfold
    intro k hk
    rw [← Option.some.inj hfold]
    exact hst k hk
  | cons k0 t ih =>
    intro st hst hfold
    rw [List.foldl_cons] at hfold
    by_cases hskip : P.mh_iter_min ≤ nit ∧ hdOk P s k0 = true
    · rw [show (some st).bind (fun st2 =>
          if P.mh_iter_min ≤ nit ∧ hdOk P s k0 = true then some st2
          else (mhCandidate P O nit k0 st2).map (mhAccept P O nit k0 st2)) =
          some st from by rw [Option.some_bind, if_pos hskip]] at hfold
      exact ih st hst hfold
    · rw [Option.some_bind, if_neg hskip] at hfold
      cases hc : mhCandidate P O nit k0 st with
      | none =>
        rw [hc] at hfold
        rw [show (Option.map (mhAccept P O nit k0 st) none : Option (ℕ → ℚ × ℚ))
          = none from rfl] at hfold
        rw [foldl_bind_none] at hfold
        cases hfold
      | some c =>
        rw [hc] at hfold
        rw [show Option.map (mhAccept P O nit k0 st) (some c)
          = some (mhAccept P O nit k0 st c) from rfl] at hfold
        refine ih (mhAccept P O nit k0 st c) ?_ hfold
        intro k2 hk2
        have hkne : k2 ≠ k0 := fun he => hskip ⟨hnit, he ▸ hk2⟩
        rw [mhAccept]
        split
        · rw [Function.update_noteq hkne]
          exact hst k2 hk2
        · split
          · rw [Function.update_noteq hkne]
            exact hst k2 hk2
          · exact hst k2 hk2

theorem nhd_le_of_keeps {P : MHParams} {s s2 : ℕ → ℚ × ℚ}
    (h : ∀ k, hdOk P s k = true → s2 k = s k) : nhd P s ≤ nhd P s2 := by
  rw [nhd, nhd]
  apply List.countP_mono_left
  intro k _ hk
  show hdOk P s2 k = true
  rw [hdOk, h k hk]
  exact hk

theorem fullTrace_chain_drop (P : MHParams) (O : MHOracle) :
    ∀ (rem nit : ℕ) (s : ℕ → ℚ × ℚ),
      List.Chain' (· ≤ ·)
        ((fullTrace P (mhLoopAux P O nit rem s)).drop
          (P.mh_iter_min - nit)) := by
  intro rem
  induction rem with
  | zero =>
    intro nit s
    rw [mhLoopAux_zero, fullTrace_nil]
    cases P.mh_iter_min - nit with
    | zero => exact List.chain'_singleton _
    | succ m => cases m <;> exact List.chain'_nil
  | succ rem ih =>
    intro nit s
    by_cases hstop : P.mh_iter_min ≤ nit ∧ nhd P s = P.npt
    · rw [mhLoopAux_succ_stop P O nit rem s hstop, fullTrace_stop]
      cases P.mh_iter_min - nit with
      | zero => exact List.chain'_singleton _
      | succ m => cases m <;> exact List.chain'_nil
    · cases hsw : mhSweep P O nit s with
      | none =>
        rw [mhLoopAux_succ_fail P O nit rem s hstop hsw, fullTrace_failed]
        cases P.mh_iter_min - nit with
        | zero => exact List.chain'_singleton _
        | succ m => cases m <;> exact List.chain'_nil
      | some s2 =>
        rw [mhLoopAux_succ_step P O nit rem s s2 hstop hsw, fullTrace_mk_cons]
        cases hmn : P.mh_iter_min - nit with
        | zero =>
          have hnit : P.mh_iter_min ≤ nit := Nat.sub_eq_zero_iff_le.mp hmn
          rw [List.drop_zero, List.chain'_cons']
          constructor
          · intro y hy
            rw [fullTrace_head P O rem (nit + 1) s2] at hy
            have hy2 : nhd P s2 = y := by simpa using hy
            rw [← hy2]
            exact nhd_le_of_keeps (mhSweep_keeps P O hnit hsw)
          · have h2 := ih (nit + 1) s2
            rwa [show P.mh_iter_min - (nit + 1) = 0 by omega,
              List.drop_zero] at h2
        | succ m =>
          rw [List.drop_succ_cons]
          have h2 := ih (nit + 1) s2
          rwa [show P.mh_iter_min - (nit + 1) = m by omega] at h2

/-- C1: in a conditional run whose Metropolis-Hastings loop meets no
singular-solve failure, the recorded honoured-count sequence is
non-decreasing from iteration `mh_iter_min` on: at such iterations
already-honoured points are skipped and a candidate whose truncation-rule
image differs from the required value is never accepted, so every pair of
consecutive recorded counts at or past `mh_iter_min` is ordered upward. -/
theorem C1_honored_monotone (P : MHParams) (O : MHOracle) (s0 : ℕ → ℚ × ℚ)
    (_hok : (mhRun P O s0).sim_ok = true) :
    ∀ i a b, P.mh_iter_min ≤ i →
      (mhRun P O s0).trace[i]? = some a →
      (mhRun P O s0).trace[i + 1]? = some b → a ≤ b := by
  intro i a b hmin ha hb
  rw [mhRun_trace] at ha hb
  have hchain := fullTrace_chain_drop P O P.mh_iter_max 0 s0
  rw [Nat.sub_zero] at hchain
  rw [List.chain'_iff_get] at hchain
  have hja : ((fullTrace P (mhLoopAux P O 0 P.mh_iter_max s0)).drop
      P.mh_iter_min)[i - P.mh_iter_min]? = some a := by
    rw [List.getElem?_drop, show P.mh_iter_min + (i - P.mh_iter_min) = i
      by omega]
    exact ha
  have hjb : ((fullTrace P (mhLoopAux P O 0 P.mh_iter_max s0)).drop
      P.mh_iter_min)[i - P.mh_iter_min + 1]? = some b := by
    rw [List.getElem?_drop, show P.mh_iter_min + (i - P.mh_iter_min + 1) = i + 1
      by omega]
    exact hb
  obtain ⟨hlA, hgA⟩ := List.getElem?_eq_some_iff.mp hja
  obtain ⟨hlB, hgB⟩ := List.getElem?_eq_some_iff.mp hjb
  have hc := hchain (i - P.mh_iter_min) (by omega)
  rw [List.get_eq_getElem, List.get_eq_getElem] at hc
  rw [← hgA, ← hgB]
  exact hc

/-- Witness for C1: one deterministic point honoured at once; the run
succeeds and its recorded counts are non-decreasing from iteration 0. -/
theorem C1_honored_monotone_witness :
    (mhRun Pdet Odet (fun _ => (0, 0))).sim_ok = true ∧
    (∀ i a b, Pdet.mh_iter_min ≤ i →
      (mhRun Pdet Odet (fun _ => (0, 0))).trace[i]? = some a →
      (mhRun Pdet Odet (fun _ => (0, 0))).trace[i + 1]? = some b → a ≤ b) :=
  ⟨by with_unfolding_all decide,
    C1_honored_monotone Pdet Odet (fun _ => (0, 0))
      (by with_unfolding_all decide)⟩

theorem mhLoopAux_trace_length (P : MHParams) (O : MHOracle) :
    ∀ (rem nit : ℕ) (s : ℕ → ℚ × ℚ),
      (mhLoopAux P O nit rem s).trace.length ≤ rem := by
  intro rem
  induction rem with
  | zero => intro nit s; rw [mhLoopAux_zero]; simp
  | succ rem ih =>
    intro nit s
    by_cases hstop : P.mh_iter_min ≤ nit ∧ nhd P s = P.npt
    · rw [mhLoopAux_succ_stop P O nit rem s hstop]
      simp
    · cases hsw : mhSweep P O nit s with
      | none =>
        rw [mhLoopAux_succ_fail P O nit rem s hstop hsw]
        simp
      | some s2 =>
        rw [mhLoopAux_succ_step P O nit rem s s2 hstop hsw]
        have := ih (nit + 1) s2
        simp only [List.length_cons]
        omega

theorem mhLoopAux_trace_length_full (P : MHParams) (O : MHOracle) :
    ∀ (rem nit : ℕ) (s : ℕ → ℚ × ℚ),
      (mhLoopAux P O nit rem s).sim_ok = true →
      (mhLoopAux P O nit rem s).stop_mh = false →
      (mhLoopAux P O nit rem s).trace.length = rem := by
  intro rem
  induction rem with
  | zero => intro nit s _ _; rw [mhLoopAux_zero]; rfl
  | succ rem ih =>
    intro nit s hsim hstop2
    by_cases hstop : P.mh_iter_min ≤ nit ∧ nhd P s = P.npt
    · rw [mhLoopAux_succ_stop P O nit rem s hstop] at hstop2
      cases hstop2
    · cases hsw : mhSweep P O nit s with
      | none =>
        rw [mhLoopAux_succ_fail P O nit rem s hstop hsw] at hsim
        cases hsim
      | some s2 =>
        rw [mhLoopAux_succ_step P O nit rem s s2 hstop hsw] at hsim hstop2 ⊢
        simp only [List.length_cons]
        rw [ih (nit + 1) s2 hsim hstop2]

theorem mhLoopAux_stop_exists (P : MHParams) (O : MHOracle) :
    ∀ (rem nit : ℕ) (s : ℕ → ℚ × ℚ),
      (mhLoopAux P O nit rem s).stop_mh = true →
      ∃ i, P.mh_iter_min ≤ nit + i ∧
        (mhLoopAux P O nit rem s).trace[i]? = some P.npt := by
  intro rem
  induction rem with
  | zero => intro nit s h; rw [mhLoopAux_zero] at h; cases h
  | succ rem ih =>
    intro nit s h
    by_cases hstop : P.mh_iter_min ≤ nit ∧ nhd P s = P.npt
    · refine ⟨0, by simpa using hstop.1, ?_⟩
      rw [mhLoopAux_succ_stop P O nit rem s hstop, hstop.2]
      rfl
    · cases hsw : mhSweep P O nit s with
      | none =>
        rw [mhLoopAux_succ_fail P O nit rem s hstop hsw] at h
        cases h
      | some s2 =>
        rw [mhLoopAux_succ_step P O nit rem s s2 hstop hsw] at h ⊢
        obtain ⟨i, h1, h2⟩ := ih (nit + 1) s2 h
        refine ⟨i + 1, by omega, ?_⟩
        rw [List.getElem?_cons_succ]
        exact h2

theorem mhLoopAux_no_stale (P : MHParams) (O : MHOracle) :
    ∀ (rem nit : ℕ) (s : ℕ → ℚ × ℚ),
      (mhLoopAux P O nit rem s).stop_mh = false →
      ∀ i, P.mh_iter_min ≤ nit + i →
        ¬ (mhLoopAux P O nit rem s).trace[i]? = some P.npt := by
  intro rem
  induction rem with
  | zero =>
    intro nit s _ i _
    rw [mhLoopAux_zero]
    intro h
    simp at h
  | succ rem ih =>
    intro nit s hstop2 i hmin
    by_cases hstop : P.mh_iter_min ≤ nit ∧ nhd P s = P.npt
    · rw [mhLoopAux_succ_stop P O nit rem s hstop] at hstop2
      cases hstop2
    · cases hsw : mhSweep P O nit s with
      | none =>
        rw [mhLoopAux_succ_fail P O nit rem s hstop hsw]
        cases i with
        | zero =>
          intro h
          have h2 : nhd P s = P.npt := by simpa using h
          exact hstop ⟨by simpa using hmin, h2⟩
        | succ j =>
          intro h
          rw [List.getElem?_cons_succ] at h
          simp at h
      | some s2 =>
        rw [mhLoopAux_succ_step P O nit rem s s2 hstop hsw] at hstop2 ⊢
        cases i with
        | zero =>
          intro h
          have h2 : nhd P s = P.npt := by simpa using h
          exact hstop ⟨by simpa using hmin, h2⟩
        | succ j =>
          rw [List.getElem?_cons_succ]
          exact ih (nit + 1) s2 hstop2 j (by omega)

/-- C2: the Metropolis-Hastings loop of a conditional realization attempt
executes at most `mh_iter_max` iterations (the recorded sequence has at most
`mh_iter_max + 1` entries, the extra one being the final recount), and it
stops with `stop_mh = true` exactly when at some executed iteration `nit`
with `mh_iter_min ≤ nit ≤ mh_iter_max - 1` every conditioning point was
honoured; in particular it never stops at an iteration before
`mh_iter_min`, even if all points are honoured there. -/
theorem C2_mh_termination (P : MHParams) (O : MHOracle) (s0 : ℕ → ℚ × ℚ) :
    (mhRun P O s0).trace.length ≤ P.mh_iter_max + 1 ∧
    ((mhRun P O s0).stop_mh = true ↔
      ∃ i, P.mh_iter_min ≤ i ∧ i < P.mh_iter_max ∧
        (mhRun P O s0).trace[i]? = some P.npt) := by
  constructor
  · rw [mhRun_trace, fullTrace]
    have h1 := mhLoopAux_trace_length P O P.mh_iter_max 0 s0
    split
    · rw [List.length_append]
      simp only [List.length_singleton]
      omega
    · omega
  · rw [mhRun_stop, mhRun_trace]
    constructor
    · intro hstop
      obtain ⟨i, h1, h2⟩ := mhLoopAux_stop_exists P O P.mh_iter_max 0 s0 hstop
      rw [Nat.zero_add] at h1
      obtain ⟨hlt, _⟩ := List.getElem?_eq_some_iff.mp h2
      have hlen := mhLoopAux_trace_length P O P.mh_iter_max 0 s0
      refine ⟨i, h1, by omega, ?_⟩
      rw [fullTrace, if_neg (fun hc => by rw [hstop] at hc; cases hc.2)]
      exact h2
    · rintro ⟨i, h1, h2, h3⟩
      by_contra hstop
      have hstop2 : (mhLoopAux P O 0 P.mh_iter_max s0).stop_mh = false :=
        Bool.eq_false_iff.mpr hstop
      have hns := mhLoopAux_no_stale P O P.mh_iter_max 0 s0 hstop2 i
        (by simpa using h1)
      apply hns
      rw [fullTrace] at h3
      split at h3
      · rename_i hc
        have hfull := mhLoopAux_trace_length_full P O P.mh_iter_max 0 s0
          hc.1 hc.2
        rwa [List.getElem?_append_left (by omega)] at h3
      · exact h3

theorem mhAccept_or_update (P : MHParams) (O : MHOracle) (nit k : ℕ)
    (st : ℕ → ℚ × ℚ) (c : ℚ × ℚ) :
    mhAccept P O nit k st c = Function.update st k c ∨
      mhAccept P O nit k st c = st := by
  rw [mhAccept]
  split
  · exact Or.inl rfl
  · split
    · exact Or.inl rfl
    · exact Or.inr rfl

theorem mhCandidate_T1_mean (P : MHParams) (O : MHOracle) (nit k : ℕ)
    (st : ℕ → ℚ × ℚ) (c : ℚ × ℚ) (hcov : P.covT1 = false)
    (hc : mhCandidate P O nit k st = some c) : c.1 = P.meanT1 k := by
  rw [mhCandidate, hcov] at hc
  rw [if_neg (by simp)] at hc
  rw [Option.some_bind] at hc
  cases hT2 : (if P.covT2 then
      (krigMuVar P.matT2 P.cov0T2 P.meanT2 (fun i => (st i).2)
        (listWithout P.npt k) k).map (fun ms => O.draw2 nit k ms.1 ms.2)
    else some (P.meanT2 k)) with
  | none => rw [hT2] at hc; cases hc
  | some c2 =>
    rw [hT2] at hc
    rw [show Option.map (fun c2 => (P.meanT1 k, c2)) (some c2)
      = some (P.meanT1 k, c2) from rfl] at hc
    rw [← Option.some.inj hc]

theorem seqInitT1_det (P : MHParams) (O : MHOracle) (hcov : P.covT1 = false)
    (s : ℕ → ℚ × ℚ) :
    ∃ s1, seqInitT1 P O s = some s1 ∧
      (∀ k, k ∈ O.permInit1 → (s1 k).1 = P.meanT1 k) ∧
      (∀ k, k ∉ O.permInit1 → s1 k = s k) := by
  rw [seqInitT1]
  simp only [hcov, Bool.false_eq_true, if_false]
  suffices h : ∀ (l : List ℕ) (acc : List ℕ × (ℕ → ℚ × ℚ)),
      ∃ pr : List ℕ × (ℕ → ℚ × ℚ),
        l.foldl (fun acc2 k => acc2.bind (fun p =>
          some (p.1 ++ [k], Function.update p.2 k (P.meanT1 k, (p.2 k).2))))
          (some acc) = some pr ∧
        (∀ k, k ∈ l → (pr.2 k).1 = P.meanT1 k) ∧
        (∀ k, k ∉ l → pr.2 k = acc.2 k) by
    obtain ⟨pr, h1, h2, h3⟩ := h O.permInit1 ([], s)
    exact ⟨pr.2, by rw [h1]; rfl, h2, h3⟩
  intro l
  induction l with
  | nil =>
    intro acc
    exact ⟨acc, rfl, fun k hk => absurd hk (List.not_mem_nil k),
      fun _ _ => rfl⟩
  | cons k0 t ih =>
    intro acc
    obtain ⟨pr, h1, h2, h3⟩ := ih (acc.1 ++ [k0],
      Function.update acc.2 k0 (P.meanT1 k0, (acc.2 k0).2))
    refine ⟨pr, ?_, ?_, ?_⟩
    · rw [List.foldl_cons, Option.some_bind]
      exact h1
    · intro k hk
      rcases List.mem_cons.mp hk with rfl | hk2
      · by_cases hkt : k ∈ t
        · exact h2 k hkt
        · rw [h3 k hkt]
          show (Function.update acc.2 k (P.meanT1 k, (acc.2 k).2) k).1 = _
          rw [Function.update_same]
      · exact h2 k hk2
    · intro k hk
      have hk0 : k ≠ k0 := fun he => hk (he ▸ List.mem_cons_self k0 t)
      have hkt : k ∉ t := fun ht => hk (List.mem_cons_of_mem k0 ht)
      rw [h3 k hkt]
      show Function.update acc.2 k0 (P.meanT1 k0, (acc.2 k0).2) k = acc.2 k
      rw [Function.update_noteq hk0]

theorem seqInitT2_fst (P : MHParams) (O : MHOracle) (s s2 : ℕ → ℚ × ℚ)
    (h : seqInitT2 P O s = some s2) : ∀ k, (s2 k).1 = (s k).1 := by
  rw [seqInitT2] at h
  suffices hgen : ∀ (l : List ℕ) (acc : List ℕ × (ℕ → ℚ × ℚ)),
      (∀ k, (acc.2 k).1 = (s k).1) →
      (l.foldl (fun acc2 k => acc2.bind (fun p =>
        if P.covT2 then
          match krigMuVar P.matT2 P.cov0T2 P.meanT2 (fun i => (p.2 i).2)
            p.1 k with
          | none => none
          | some ms =>
            some (p.1 ++ [k],
              Function.update p.2 k ((p.2 k).1, O.drawInit2 k ms.1 ms.2))
        else
          some (p.1 ++ [k], Function.update p.2 k ((p.2 k).1, P.meanT2 k))))
        (some acc)).map Prod.snd = some s2 →
      ∀ k, (s2 k).1 = (s k).1 by
    exact hgen O.permInit2 ([], s) (fun _ => rfl) h
  intro l
  induction l with
  | nil =>
    intro acc hacc hfold
    rw [List.foldl_nil] at hfold
    intro k
    have h2 : acc.2 = s2 := Option.some.inj hfold
    rw [← h2]
    exact hacc k
  | cons k0 t ih =>
    intro acc hacc hfold
    rw [List.foldl_cons] at hfold
    simp only [Option.some_bind] at hfold
    by_cases hcov2 : P.covT2 = true
    · rw [if_pos hcov2] at hfold
      cases hkr : krigMuVar P.matT2 P.cov0T2 P.meanT2 (fun i => (acc.2 i).2)
          acc.1 k0 with
      | none =>
        rw [hkr] at hfold
        rw [show ((match (none : Option (ℚ × ℚ)) with
          | none => none
          | some ms => some (acc.1 ++ [k0],
              Function.update acc.2 k0
                ((acc.2 k0).1, O.drawInit2 k0 ms.1 ms.2))) :
            Option (List ℕ × (ℕ → ℚ × ℚ))) = none from rfl,
          foldl_bind_none] at hfold
        cases hfold
      | some ms =>
        rw [hkr] at hfold
        refine ih (acc.1 ++ [k0], Function.update acc.2 k0
          ((acc.2 k0).1, O.drawInit2 k0 ms.1 ms.2)) ?_ hfold
        intro k
        by_cases hkk : k = k0
        · rw [hkk]
          show (Function.update acc.2 k0
            ((acc.2 k0).1, O.drawInit2 k0 ms.1 ms.2) k0).1 = _
          rw [Function.update_same]
          exact hacc k0
        · show (Function.update acc.2 k0
            ((acc.2 k0).1, O.drawInit2 k0 ms.1 ms.2) k).1 = _
          rw [Function.update_noteq hkk]
          exact hacc k
    · rw [if_neg hcov2] at hfold
      refine ih (acc.1 ++ [k0],
        Function.update acc.2 k0 ((acc.2 k0).1, P.meanT2 k0)) ?_ hfold
      intro k
      by_cases hkk : k = k0
      · rw [hkk]
        show (Function.update acc.2 k0 ((acc.2 k0).1, P.meanT2 k0) k0).1 = _
        rw [Function.update_same]
        exact hacc k0
      · show (Function.update acc.2 k0 ((acc.2 k0).1, P.meanT2 k0) k).1 = _
        rw [Function.update_noteq hkk]
        exact hacc k

theorem mhSweep_T1_mean (P : MHParams) (O : MHOracle)
    (hcov : P.covT1 = false) {nit : ℕ} {s s2 : ℕ → ℚ × ℚ}
    (hsw : mhSweep P O nit s = some s2)
    (hinv : ∀ k, k < P.npt → (s k).1 = P.meanT1 k) :
    ∀ k, k < P.npt → (s2 k).1 = P.meanT1 k := by
  rw [mhSweep] at hsw
  suffices h : ∀ (l : List ℕ) (st : ℕ → ℚ × ℚ),
      (∀ k, k < P.npt → (st k).1 = P.meanT1 k) →
      l.foldl (fun acc k => acc.bind (fun st2 =>
        if P.mh_iter_min ≤ nit ∧ hdOk P s k = true then some st2
        else (mhCandidate P O nit k st2).map (mhAccept P O nit k st2)))
        (some st) = some s2 →
      ∀ k, k < P.npt → (s2 k).1 = P.meanT1 k by
    exact h (O.perm nit) s hinv hsw
  intro l
  induction l with
  | nil =>
    intro st hst hfold k hk
    rw [List.foldl_nil] at hfold
    rw [← Option.some.inj hfold]
    exact hst k hk
  | cons k0 t ih =>
    intro st hst hfold
    rw [List.foldl_cons, Option.some_bind] at hfold
    by_cases hskip : P.mh_iter_min ≤ nit ∧ hdOk P s k0 = true
    · rw [if_pos hskip] at hfold
      exact ih st hst hfold
    · rw [if_neg hskip] at hfold
      cases hc : mhCandidate P O nit k0 st with
      | none =>
        rw [hc, show (Option.map (mhAccept P O nit k0 st) none :
          Option (ℕ → ℚ × ℚ)) = none from rfl, foldl_bind_none] at hfold
        cases hfold
      | some c =>
        rw [hc, show Option.map (mhAccept P O nit k0 st) (some c)
          = some (mhAccept P O nit k0 st c) from rfl] at hfold
        refine ih (mhAccept P O nit k0 st c) ?_ hfold
        intro k2 hk2
        rcases mhAccept_or_update P O nit k0 st c with hA | hA
        · rw [hA]
          by_cases hkk : k2 = k0
          · rw [hkk, Function.update_same]
            exact mhCandidate_T1_mean P O nit k0 st c hcov hc
          · rw [Function.update_noteq hkk]
            exact hst k2 hk2
        · rw [hA]
          exact hst k2 hk2

theorem mhLoopAux_T1_mean (P : MHParams) (O : MHOracle)
    (hcov : P.covT1 = false) :
    ∀ (rem nit : ℕ) (s : ℕ → ℚ × ℚ),
      (∀ k, k < P.npt → (s k).1 = P.meanT1 k) →
      ∀ k, k < P.npt →
        ((mhLoopAux P O nit rem s).state k).1 = P.meanT1 k := by
  intro rem
  induction rem with
  | zero =>
    intro nit s hinv k hk
    rw [mhLoopAux_zero]
    exact hinv k hk
  | succ rem ih =>
    intro nit s hinv k hk
    by_cases hstop : P.mh_iter_min ≤ nit ∧ nhd P s = P.npt
    · rw [mhLoopAux_succ_stop P O nit rem s hstop]
      exact hinv k hk
    · cases hsw : mhSweep P O nit s with
      | none =>
        rw [mhLoopAux_succ_fail P O nit rem s hstop hsw]
        exact hinv k hk
      | some s2 =>
        rw [mhLoopAux_succ_step P O nit rem s s2 hstop hsw]
        exact ih (nit + 1) s2 (mhSweep_T1_mean P O hcov hsw hinv) k hk

/-- C7: for a latent field with no covariance model (`deterministic`), the
sequential initialization assigns the configured per-point mean, every
Metropolis-Hastings candidate for that field equals that mean (no kriging
solve result or random draw can influence it, for every oracle), and hence
the field's value at every conditioning point is the mean throughout the
attempt. -/
theorem C7_deterministic_mean (P : MHParams) (O : MHOracle)
    (hcov : P.covT1 = false)
    (hperm : ∀ k, k < P.npt → k ∈ O.permInit1) :
    (∃ s1, seqInitT1 P O (fun _ => (0, 0)) = some s1 ∧
      ∀ k, k < P.npt → (s1 k).1 = P.meanT1 k) ∧
    (∀ k, k < P.npt → (((tryAttempt P O).state) k).1 = P.meanT1 k) ∧
    (∀ nit k st c, mhCandidate P O nit k st = some c →
      c.1 = P.meanT1 k) := by
  obtain ⟨s1, h1, h2, h3⟩ := seqInitT1_det P O hcov (fun _ => (0, 0))
  refine ⟨⟨s1, h1, fun k hk => h2 k (hperm k hk)⟩, ?_,
    fun nit k st c hc => mhCandidate_T1_mean P O nit k st c hcov hc⟩
  intro k hk
  rw [tryAttempt, h1]
  show ((match seqInitT2 P O s1 with
    | none => (⟨[], s1, false, false⟩ : MHResult)
    | some s2 => mhRun P O s2).state k).1 = P.meanT1 k
  cases h4 : seqInitT2 P O s1 with
  | none =>
    show (s1 k).1 = P.meanT1 k
    exact h2 k (hperm k hk)
  | some s2 =>
    show ((mhRun P O s2).state k).1 = P.meanT1 k
    rw [mhRun_state]
    exact mhLoopAux_T1_mean P O hcov P.mh_iter_max 0 s2
      (fun k2 hk2 => by
        rw [seqInitT2_fst P O s1 s2 h4 k2]
        exact h2 k2 (hperm k2 hk2)) k hk

/-- Witness for C7 on the one-point deterministic instance. -/
theorem C7_deterministic_mean_witness :
    (Pdet.covT1 = false ∧ ∀ k, k < Pdet.npt → k ∈ Odet.permInit1) ∧
    ((∃ s1, seqInitT1 Pdet Odet (fun _ => (0, 0)) = some s1 ∧
      ∀ k, k < Pdet.npt → (s1 k).1 = Pdet.meanT1 k) ∧
    (∀ k, k < Pdet.npt →
      (((tryAttempt Pdet Odet).state) k).1 = Pdet.meanT1 k) ∧
    (∀ nit k st c, mhCandidate Pdet Odet nit k st = some c →
      c.1 = Pdet.meanT1 k)) :=
  ⟨⟨rfl, by decide⟩, C7_deterministic_mean Pdet Odet rfl (by decide)⟩

theorem oneTry_fail_of (A : AsmParams) (O : TryOracle) (ntry : ℕ)
    (hre : A.retrieve_real_anyway = false)
    (h : (tryAttempt A.P O.mh).sim_ok = false ∨
      lastCount (tryAttempt A.P O.mh) ≠ A.P.npt) :
    oneTry A O ntry = .fail := by
  rw [oneTry]
  by_cases hs : (tryAttempt A.P O.mh).sim_ok = false
  · rw [if_pos hs]
  · rcases h with h | h
    · exact absurd h hs
    · rw [if_neg hs, if_pos ⟨h, Or.inr hre⟩]

theorem runTriesAux_none (A : AsmParams) (Os : ℕ → TryOracle) :
    ∀ (rem start : ℕ),
      (∀ t, start ≤ t → t < start + rem → oneTry A (Os t) t = .fail) →
      runTriesAux A Os start rem = none := by
  intro rem
  induction rem with
  | zero => intro start _; rfl
  | succ rem ih =>
    intro start h
    rw [runTriesAux, h start (le_refl start) (by omega)]
    exact ih (start + 1) (fun t h1 h2 => h t (by omega) (by omega))

/-- C8: internal failures of a conditional realization (singular kriging
systems, or a Metropolis-Hastings loop exhausted without honouring every
point) never escape the retry loop: with `retrieve_real_anyway = False`,
when every try of some realization fails or ends partially honoured, that
realization is simply omitted, the call still returns and its `Z` holds
fewer than `nreal` realizations, and the missing-realization warning is
emitted at verbosity above 1. -/
theorem C8_failures_absorbed (A : AsmParams) (Os : ℕ → ℕ → TryOracle)
    (i : ℕ) (hi : i < A.nreal) (hre : A.retrieve_real_anyway = false)
    (hfail : ∀ t, t < A.ntry_max →
      (tryAttempt A.P ((Os i) t).mh).sim_ok = false ∨
      lastCount (tryAttempt A.P ((Os i) t).mh) ≠ A.P.npt) :
    runReal A (Os i) = none ∧
    (assemble A Os).Z.length < A.nreal ∧
    (1 < A.verbose → (assemble A Os).warnMissing = true) := by
  have h0 : runReal A (Os i) = none := by
    rw [runReal]
    exact runTriesAux_none A (Os i) A.ntry_max 0
      (fun t _ h2 => oneTry_fail_of A ((Os i) t) t hre
        (hfail t (by omega)))
  have hlen : ((List.range A.nreal).filterMap
      (fun j => runReal A (Os j))).length < A.nreal := by
    have h2 := @length_filterMap_lt_of_none _ _
      (fun j => runReal A (Os j)) (List.range A.nreal) i
      (List.mem_range.mpr hi) h0
    rwa [List.length_range] at h2
  refine ⟨h0, ?_, ?_⟩
  · rw [assemble]
    show (((List.range A.nreal).filterMap
      (fun j => runReal A (Os j))).map EmitData.z).length < A.nreal
    rw [List.length_map]
    exact hlen
  · intro hv
    rw [assemble]
    show decide (((List.range A.nreal).filterMap
      (fun j => runReal A (Os j))).length < A.nreal ∧ 1 < A.verbose) = true
    exact decide_eq_true ⟨hlen, hv⟩

/-- Witness for C8: one realization, a single try on an unsatisfiable
deterministic instance, `retrieve_real_anyway = False`. -/
theorem C8_failures_absorbed_witness :
    ((0 : ℕ) < Afail.nreal ∧ Afail.retrieve_real_anyway = false ∧
      (∀ t, t < Afail.ntry_max →
        (tryAttempt Afail.P ((fun _ _ => OTdet) 0 t).mh).sim_ok = false ∨
        lastCount (tryAttempt Afail.P ((fun _ _ => OTdet) 0 t).mh)
          ≠ Afail.P.npt)) ∧
    (runReal Afail ((fun _ _ => OTdet) 0) = none ∧
      (assemble Afail (fun _ _ => OTdet)).Z.length < Afail.nreal ∧
      (1 < Afail.verbose →
        (assemble Afail (fun _ _ => OTdet)).warnMissing = true)) :=
  ⟨⟨by decide, rfl, by with_unfolding_all decide⟩,
    C8_failures_absorbed Afail (fun _ _ => OTdet) 0 (by decide) rfl
      (by with_unfolding_all decide)⟩

/-- C9: a try whose Metropolis-Hastings loop ends with some conditioning
point unhonoured is abandoned — the try loop moves on to the next try —
whenever it is not the last allowed try or `retrieve_real_anyway` is off;
on the last allowed try with `retrieve_real_anyway = True` and successful
full-grid generation, the partially-honoured try is carried through and
emitted, with the diagnostic warning at verbosity above 1. -/
theorem C9_abandon_or_retrieve (A : AsmParams) (Os : ℕ → TryOracle) :
    (∀ ntry rem,
      (tryAttempt A.P (Os ntry).mh).sim_ok = true →
      lastCount (tryAttempt A.P (Os ntry).mh) ≠ A.P.npt →
      (ntry < A.ntry_max - 1 ∨ A.retrieve_real_anyway = false) →
      runTriesAux A Os ntry (rem + 1) = runTriesAux A Os (ntry + 1) rem) ∧
    (∀ t1 t2,
      A.retrieve_real_anyway = true →
      (tryAttempt A.P (Os (A.ntry_max - 1)).mh).sim_ok = true →
      lastCount (tryAttempt A.P (Os (A.ntry_max - 1)).mh) ≠ A.P.npt →
      (Os (A.ntry_max - 1)).gen1 = some t1 →
      (Os (A.ntry_max - 1)).gen2 = some t2 →
      1 < A.verbose →
      oneTry A (Os (A.ntry_max - 1)) (A.ntry_max - 1) =
        .emit ⟨List.zipWith A.P.flag t1 t2, t1, t2,
          (tryAttempt A.P (Os (A.ntry_max - 1)).mh).trace, true⟩) := by
  constructor
  · intro ntry rem hsim hlast hpol
    have hfail : oneTry A (Os ntry) ntry = .fail := by
      rw [oneTry, if_neg (by simp [hsim]), if_pos ⟨hlast, hpol⟩]
    rw [runTriesAux, hfail]
  · intro t1 t2 hre hsim hlast hg1 hg2 hv
    rw [oneTry, if_neg (by simp [hsim])]
    rw [if_neg (fun hc => hc.2.elim (fun h => absurd h (lt_irrefl _))
      (fun h => by rw [hre] at h; cases h))]
    rw [hg1, hg2]
    show (if lastCount (tryAttempt A.P (Os (A.ntry_max - 1)).mh) ≠ A.P.npt ∧
        A.retrieve_real_anyway = false then TryOut.giveup
      else TryOut.emit ⟨List.zipWith A.P.flag t1 t2, t1, t2,
        (tryAttempt A.P (Os (A.ntry_max - 1)).mh).trace,
        decide (lastCount (tryAttempt A.P (Os (A.ntry_max - 1)).mh)
          ≠ A.P.npt ∧ 1 < A.verbose)⟩) = _
    rw [if_neg (fun hc => by rw [hre] at hc; cases hc.2),
      decide_eq_true ⟨hlast, hv⟩]

/-- Witness for C9: abandonment on the first of two tries with
`retrieve_real_anyway = False`, and last-try emission with
`retrieve_real_anyway = True`, both on the unsatisfiable deterministic
instance. -/
theorem C9_abandon_or_retrieve_witness :
    ((tryAttempt Aaband.P ((fun _ => OTdet) 0).mh).sim_ok = true ∧
      lastCount (tryAttempt Aaband.P ((fun _ => OTdet) 0).mh)
        ≠ Aaband.P.npt ∧
      (tryAttempt Aretr.P ((fun _ => OTdet) (Aretr.ntry_max - 1)).mh).sim_ok
        = true) ∧
    runTriesAux Aaband (fun _ => OTdet) 0 1 =
      runTriesAux Aaband (fun _ => OTdet) 1 0 ∧
    oneTry Aretr ((fun _ => OTdet) (Aretr.ntry_max - 1))
        (Aretr.ntry_max - 1) =
      .emit ⟨List.zipWith Aretr.P.flag [0] [0], [0], [0],
        (tryAttempt Aretr.P ((fun _ => OTdet) (Aretr.ntry_max - 1)).mh).trace,
        true⟩ :=
  ⟨⟨by with_unfolding_all decide, by with_unfolding_all decide,
      by with_unfolding_all decide⟩,
    (C9_abandon_or_retrieve Aaband (fun _ => OTdet)).1 0 0
      (by with_unfolding_all decide) (by with_unfolding_all decide)
      (Or.inl (by decide)),
    (C9_abandon_or_retrieve Aretr (fun _ => OTdet)).2 [0] [0] rfl
      (by with_unfolding_all decide) (by with_unfolding_all decide)
      rfl rfl (by decide)⟩

end PGS
